import Mathlib

/-!
Verification of the protocol codec core of the dygma-sdk-rs repository.

This file models, as a shallow embedding in Lean:

* the generated key-code tables (`api/src/parsing/keymap/keycode_tables.rs`
  expanded by the `macros` proc-macro crate: `impl_from_u16_for_key_kind.rs`,
  `key_table_enum.rs`, `ir.rs`, `impl_from_str_for_key_table_enums.rs`,
  `impl_from_str_for_key_kind_enum.rs`, `impl_from_enum_for_u16.rs`),
* the Defy keymap layer codec (`api/src/devices/defy.rs`),
* the superkey serializers (`api/src/devices/defy.rs` and
  `api/src/focus_api/parsing/superkeys.rs`),
* the Focus API response framer (`api/src/parsing/focus_api.rs`),
* the macro-memory grammar (`api/src/focus_api/parsing/macros.rs`).

Machine integers are modelled as `Nat` with explicit bounds (`≤ 65535` for
`u16`, `≤ 255` for `u8`); overflow checks of the Rust code (`checked_add`)
become explicit `≤ 65535` guards.
-/

set_option maxRecDepth 100000
set_option maxHeartbeats 4000000

namespace DygmaSpec

/-! ## Source data of the declarative key-code table

Transcribed from the `macros::generate_keycode_tables!` invocation in
`api/src/parsing/keymap/keycode_tables.rs`.  Each key stores its identifier,
the raw doc-comment string (exactly as the proc macro receives it, including
the leading space), and the optional explicit code literal. -/

structure SrcKey where
  name : String
  doc : Option String
  code : Option Nat
deriving DecidableEq

structure SrcTable where
  name : String
  withMods : Bool
  withDuals : Bool
  keys : List SrcKey
deriving DecidableEq

/-- Key with no doc comment and no explicit code (auto-incremented). -/
def k0 (n : String) : SrcKey := ⟨n, none, none⟩

/-- Key with no doc comment and an explicit code. -/
def kc (n : String) (c : Nat) : SrcKey := ⟨n, none, some c⟩

/-- Key with a doc comment and no explicit code. -/
def kd (n d : String) : SrcKey := ⟨n, some d, none⟩

/-- Key with a doc comment and an explicit code. -/
def kdc (n d : String) (c : Nat) : SrcKey := ⟨n, some d, some c⟩

/-- The apostrophe character (used inside some doc-comment display names). -/
def aposStr : String := String.mk [Char.ofNat 39]

def blankKeys : List SrcKey := [kdc "NoKey" " No Key" 0, kc "Transparent" 65535]

def spacingKeys : List SrcKey :=
  [kc "Enter" 40, k0 "Escape", k0 "Backspace", k0 "Tab", k0 "Space",
   kc "Insert" 73, kc "Delete" 76]

def alphaKeys : List SrcKey :=
  kc "A" 4 ::
    (["B", "C", "D", "E", "F", "G", "H", "I", "J", "K", "L", "M", "N", "O",
      "P", "Q", "R", "S", "T", "U", "V", "W", "X", "Y", "Z"].map k0)

def digitsKeys : List SrcKey :=
  [kdc "One" " 1" 30, kd "Two" " 2", kd "Three" " 3", kd "Four" " 4",
   kd "Five" " 5", kd "Six" " Six", kd "Seven" " 7", kd "Eight" " 8",
   kd "Nine" " 9", kd "Zero" " 0"]

def numpadKeys : List SrcKey :=
  [kdc "NumLock" " Num Lock" 83, kd "Divide" " Numpad /", kd "Times" " Numpad *",
   kd "Minus" " Numpad -", kd "Add" " Numpad +", kd "Enter" " Numpad Enter",
   kd "One" " Numpad 1", kd "Two" " Numpad 2", kd "Three" " Numpad 3",
   kd "Four" " Numpad 4", kd "Five" " Numpad 5", kd "Six" " Numpad 6",
   kd "Seven" " Numpad 7", kd "Eight" " Numpad 8", kd "Nine" " Numpad 9",
   kd "Zero" " Numpad 0", kd "Period" " Numpad ."]

def fxKeys : List SrcKey :=
  kc "F1" 58 ::
    (["F2", "F3", "F4", "F5", "F6", "F7", "F8", "F9", "F10", "F11", "F12"].map k0)
    ++ (kc "F13" 104 ::
      (["F14", "F15", "F16", "F17", "F18", "F19", "F20", "F21", "F22", "F23",
        "F24"].map k0))

def symbolsKeys : List SrcKey :=
  [kdc "Dash" " `-``" 45, kd "Equals" " `=`", kd "BracketLeft" " `[`",
   kd "BracketRight" " `]`", kd "Backslash" " `\\`",
   kdc "Semicolon" " `;`" 51, kd "SingleQuote" (" `" ++ aposStr ++ "``"),
   kd "BackTick" " ```", kd "Comma" " `,`", kd "Period" " `.`",
   kd "Slash" " `/`", kd "CapsLock" " Caps Lock",
   kdc "IsoGTLT" " ISO `<>`" 100]

def shiftSymbolsKeys : List SrcKey :=
  [kdc "Underscore" " `_`" 2093, kd "Plus" " `+`", kd "BraceLeft" " `\x7b\x7b`",
   kd "BraceRight" " `\x7d\x7d`", kd "Pipe" " `|`", kdc "Colon" " `:`" 2099,
   kd "DoubleQuote" " `\"`", kd "Tilde" " `~`", kd "LT" " `<`", kd "GT" " `>`",
   kd "QuestionMark" " `?`", kdc "AltPipe" " Non-U.S. |" 2148]

def modifiersKeys : List SrcKey :=
  [kdc "LeftCtrl" " Left Ctrl" 224, kd "LeftShift" " Left Shift",
   kd "LeftAlt" " Left Shift", kd "LeftOs" " Left OS",
   kd "RightCtrl" " Right Ctrl", kd "RightShift" " Right Shift",
   k0 "AltGr", kd "RightOs" " Right OS"]

def mediaKeys : List SrcKey :=
  [kc "Mute" 19682, kdc "NextTrack" " Next Track" 22709,
   kd "PreviousTrack" " Previous Track", k0 "Stop",
   kdc "PlayPause" " Play/Pause" 22733, kdc "VolumeUp" " Volume Up" 23785,
   kd "VolumeDown" " Volume Down", kc "Eject" 22712, kc "Camera" 18552,
   kdc "BrightnessUp" " Brightness Up" 23663,
   kd "BrightnessDown" " Brightness Down", kc "Calculator" 18834,
   kc "Shuffle" 22713]

def navigationKeys : List SrcKey :=
  [kc "Home" 74, kd "PageUp" " Page Up", kc "End" 77, kd "PageDown" " Page Down",
   kd "ArrowRight" " Right Arrow", kd "ArrowLeft" " Left Arrow",
   kd "ArrowDown" " Down Arrow", kd "ArrowUp" " Up Arrow", kc "Menu" 101]

def mouseMovementKeys : List SrcKey :=
  [kdc "MouseUp" " Mouse Up" 20481, kd "MouseDown" " Mouse Down",
   kdc "MouseLeft" " Mouse Left" 20484, kdc "MouseRight" " Mouse Right" 20488]

def mouseWheeleKeys : List SrcKey :=
  [kdc "WheelUp" " Mouse Wheele Up" 20497, kd "WheelDown" " Mouse Wheel Down",
   kdc "WheelLeft" " Mouse Wheel Left" 20500,
   kdc "WheelRight" " Mouse Wheele Right" 20504]

def mouseButtonsKeys : List SrcKey :=
  [kdc "Left" " Mouse Button Left" 20545, kd "Right" " Mouse Button Right",
   kdc "Middle" " Mouse Button Middle" 20548,
   kdc "Back" " Mouse Button Back" 20552,
   kdc "Forward" " Mouse Button Forward" 20560]

def mouseWarpKeys : List SrcKey :=
  [kdc "End" " Mouse Warp End" 20576, kdc "NW" " Mouse Warp NW" 20517,
   kd "SW" " Mouse Warp SW", kdc "NE" " Mouse Warp NE" 20521,
   kd "SE" " Mouse Warp SE"]

def ledEffectsKeys : List SrcKey :=
  [kdc "Next" " Next LED Effect" 17152, kd "Previous" " Previous LED Effect",
   kd "Toggle" " Toggle LED Effect"]

def batteryKeys : List SrcKey := [kdc "Status" " Battery Status" 54108]

/-- The `bluetooth` table; the `Pair` key has two identical doc lines in the
source and the code generator keeps the first one. -/
def bluetoothKeys : List SrcKey := [kdc "Pair" " Bluetooth Pairing" 54109]

def energyKeys : List SrcKey := [kdc "Status" " Energy Status" 54111]

def rfKeys : List SrcKey := [kdc "Status" " Wireless RF Status" 54112]

/-- `Layer1 = base` then nine auto-incremented layers, doc " Layer N <suffix>". -/
def layerKeys (suffix : String) (base : Nat) : List SrcKey :=
  (List.range 10).map fun i =>
    ⟨"Layer" ++ toString (i + 1),
     some (" Layer " ++ toString (i + 1) ++ " " ++ suffix),
     if i = 0 then some base else none⟩

def miscellaneousKeys : List SrcKey :=
  [kdc "PrintScreen" " Print Screen" 70, kd "ScrollLock" " Scroll Lock",
   k0 "Pause", kc "Shutdown" 20865, kc "Sleep" 20866]

def oneshotKeys : List SrcKey :=
  ((List.range 8).map fun i =>
    ⟨"Layer" ++ toString (i + 1),
     some (" Oneshot Layer " ++ toString (i + 1)),
     if i = 0 then some 49161 else none⟩)
  ++ [kdc "LeftCtrl" " Oneshot Left Ctrl" 49153,
      kd "LeftShift" " Oneshot Left Shift", kd "LeftAlt" " Oneshot Left Alt",
      kd "LeftOs" " Oneshot Left OS", kd "RightCtrl" " Oneshot Right Ctrl",
      kd "RightShift" " Oneshot Right Shift", kd "AltGr" " Oneshot AltGr",
      kd "RightOs" " Oneshot Right OS"]

def macroSlotKeys : List SrcKey :=
  (List.range 128).map fun i =>
    ⟨"Macro" ++ toString (i + 1),
     some (" Macro " ++ toString (i + 1)),
     if i = 0 then some 53852 else none⟩

def superSlotKeys : List SrcKey :=
  (List.range 128).map fun i =>
    ⟨"Super" ++ toString (i + 1),
     some (" Super Key " ++ toString (i + 1)),
     if i = 0 then some 53980 else none⟩

/-- All tables of the `generate_keycode_tables!` invocation, in source order,
with their `#[with_modifiers]` / `#[with_dual_functions]` attributes. -/
def keycodeTables : List SrcTable :=
  [⟨"blank", false, false, blankKeys⟩,
   ⟨"spacing", true, true, spacingKeys⟩,
   ⟨"alpha", true, true, alphaKeys⟩,
   ⟨"digits", true, true, digitsKeys⟩,
   ⟨"numpad", true, true, numpadKeys⟩,
   ⟨"fx", true, true, fxKeys⟩,
   ⟨"symbols", true, true, symbolsKeys⟩,
   ⟨"shift_symbols", false, false, shiftSymbolsKeys⟩,
   ⟨"modifiers", true, false, modifiersKeys⟩,
   ⟨"media", false, false, mediaKeys⟩,
   ⟨"navigation", true, true, navigationKeys⟩,
   ⟨"mouse_movement", false, false, mouseMovementKeys⟩,
   ⟨"mouse_wheele", false, false, mouseWheeleKeys⟩,
   ⟨"mouse_buttons", false, false, mouseButtonsKeys⟩,
   ⟨"mouse_warp", false, false, mouseWarpKeys⟩,
   ⟨"led_effects", false, false, ledEffectsKeys⟩,
   ⟨"battery", false, false, batteryKeys⟩,
   ⟨"bluetooth", false, false, bluetoothKeys⟩,
   ⟨"energy", false, false, energyKeys⟩,
   ⟨"rf", false, false, rfKeys⟩,
   ⟨"layer_lock", false, false, layerKeys "Lock" 17408⟩,
   ⟨"layer_shift", false, false, layerKeys "Shift" 17450⟩,
   ⟨"layer_move", false, false, layerKeys "Move" 17492⟩,
   ⟨"miscellaneous", true, true, miscellaneousKeys⟩,
   ⟨"oneshot", false, false, oneshotKeys⟩,
   ⟨"macros", false, false, macroSlotKeys⟩,
   ⟨"super_keys", false, false, superSlotKeys⟩]

/-! ## Modifier combinatorics

Transcribed from the `Modifier` and `DualFunctionModifier` enums of
`macros/src/codegen.rs` / `macros/src/ir.rs`. -/

inductive KMod where
  | ctrl | alt | altGr | shift | os
deriving DecidableEq

/-- `Modifier::as_modifier_value`. -/
def KMod.value : KMod → Nat
  | .ctrl => 0x0100
  | .alt => 0x0200
  | .altGr => 0x0400
  | .shift => 0x0800
  | .os => 0x1000

/-- The derived `Display` string of `Modifier` (the variant name). -/
def KMod.str : KMod → String
  | .ctrl => "Ctrl"
  | .alt => "Alt"
  | .altGr => "AltGr"
  | .shift => "Shift"
  | .os => "Os"

/-- Lexicographic k-combinations, matching the order `itertools` uses. -/
def combosN : Nat → List α → List (List α)
  | 0, _ => [[]]
  | _ + 1, [] => []
  | k + 1, x :: xs => (combosN k xs).map (x :: ·) ++ combosN (k + 1) xs

/-- `Modifier::powerset()`: `itertools` powerset of
`[Ctrl, Alt, AltGr, Os, Shift]` (all subsets, by size then lexicographic). -/
def modPowerset : List (List KMod) :=
  (List.range 6).flatMap fun k =>
    combosN k [KMod.ctrl, KMod.alt, KMod.altGr, KMod.os, KMod.shift]

/-- The non-empty modifier subsets, in powerset order. -/
def modPowersetNE : List (List KMod) := modPowerset.filter (· ≠ [])

/-- The sum of the modifier mask values of a subset. -/
def modSum (ms : List KMod) : Nat := (ms.map KMod.value).sum

inductive DualFn where
  | ctrl | alt | altGr | os | shift
  | layer1 | layer2 | layer3 | layer4 | layer5 | layer6 | layer7 | layer8
deriving DecidableEq

/-- `DualFunctionModifier::VALUES` (source order). -/
def DualFn.values : List DualFn :=
  [.ctrl, .alt, .altGr, .os, .shift,
   .layer1, .layer2, .layer3, .layer4, .layer5, .layer6, .layer7, .layer8]

/-- `DualFunctionModifier::as_modifier_value`. -/
def DualFn.value : DualFn → Nat
  | .ctrl => 49169
  | .alt => 49681
  | .altGr => 50705
  | .os => 49937
  | .shift => 49425
  | .layer1 => 51218
  | .layer2 => 51474
  | .layer3 => 51730
  | .layer4 => 51986
  | .layer5 => 52242
  | .layer6 => 52498
  | .layer7 => 52754
  | .layer8 => 53010

/-- The `Debug` string of `DualFunctionModifier` (variant name). -/
def DualFn.debugStr : DualFn → String
  | .ctrl => "Ctrl"
  | .alt => "Alt"
  | .altGr => "AltGr"
  | .os => "Os"
  | .shift => "Shift"
  | .layer1 => "Layer1"
  | .layer2 => "Layer2"
  | .layer3 => "Layer3"
  | .layer4 => "Layer4"
  | .layer5 => "Layer5"
  | .layer6 => "Layer6"
  | .layer7 => "Layer7"
  | .layer8 => "Layer8"

/-- The `Display` string of `DualFunctionModifier` (with `#[display]` overrides
for the layer variants). -/
def DualFn.displayStr : DualFn → String
  | .ctrl => "Ctrl"
  | .alt => "Alt"
  | .altGr => "AltGr"
  | .os => "Os"
  | .shift => "Shift"
  | .layer1 => "Layer 1"
  | .layer2 => "Layer 2"
  | .layer3 => "Layer 3"
  | .layer4 => "Layer 4"
  | .layer5 => "Layer 5"
  | .layer6 => "Layer 6"
  | .layer7 => "Layer 7"
  | .layer8 => "Layer 8"

/-! ## KeyKind

A generated enum variant is identified by the table it belongs to, the index
of the source key inside the table, and the derivation that produced it
(the base key, a modifier-subset combination, or a dual-function overlay).
The generated Rust identifiers are built injectively from exactly these
three components, so this identification is faithful. -/

inductive KDeriv where
  | base
  | mods (ms : List KMod)
  | dual (m : DualFn)
deriving DecidableEq

structure VariantId where
  tableIdx : Nat
  keyIdx : Nat
  deriv : KDeriv
deriving DecidableEq

/-- `KeyKind`: one variant per table (wrapping the table enum), plus
`Unknown(u16)`. -/
inductive KeyKind where
  | known (v : VariantId)
  | unknown (code : Nat)
deriving DecidableEq

/-! ### Decode arms: `impl From<u16> for KeyKind`

Transcribed from `macros/src/codegen/impl_from_u16_for_key_kind.rs`: for each
table, iterate the keys threading the running offset (an explicit code
resets it, an auto key increments it, an increment that would overflow `u16`
skips the key via `continue` without changing the offset).  For each key the
base arm is pushed, then (if enabled) one arm per non-empty modifier subset
and one per dual-function modifier, dropping any arm whose code would
overflow `u16`. -/

def modArmsForKey (t i c : Nat) : List (VariantId × Nat) :=
  modPowersetNE.filterMap fun ms =>
    if c + modSum ms ≤ 65535 then some (⟨t, i, .mods ms⟩, c + modSum ms)
    else none

def dualArmsForKey (t i c : Nat) : List (VariantId × Nat) :=
  DualFn.values.filterMap fun m =>
    if c + m.value ≤ 65535 then some (⟨t, i, .dual m⟩, c + m.value) else none

def armsForKey (t i : Nat) (wM wD : Bool) (c : Nat) : List (VariantId × Nat) :=
  (⟨t, i, .base⟩, c)
    :: ((if wM then modArmsForKey t i c else [])
        ++ (if wD then dualArmsForKey t i c else []))

def armsOfKeys (t : Nat) (wM wD : Bool) : Nat → Nat → List SrcKey → List (VariantId × Nat)
  | _, _, [] => []
  | i, off, k :: ks =>
    match k.code with
    | some c => armsForKey t i wM wD c ++ armsOfKeys t wM wD (i + 1) c ks
    | none =>
      if off + 1 ≤ 65535 then
        armsForKey t i wM wD (off + 1) ++ armsOfKeys t wM wD (i + 1) (off + 1) ks
      else
        armsOfKeys t wM wD (i + 1) off ks

/-- All match arms of the generated `impl From<u16> for KeyKind`, in source
order (table-major, then key-major: base, modifier subsets, duals). -/
def decodeArms : List (VariantId × Nat) :=
  (keycodeTables.enum.map fun (t, tb) => armsOfKeys t tb.withMods tb.withDuals 0 0 tb.keys).flatten

/-- `KeyKind::from(u16)`: the first matching arm wins, otherwise
`Unknown(code)`. -/
def KeyKind.fromU16 (c : Nat) : KeyKind :=
  match decodeArms.find? (fun e => e.2 == c) with
  | some e => .known e.1
  | none => .unknown c

/-! ### Encode: `impl From<KeyKind> for u16`

`u16::from(KeyKind)` reads the discriminant the generated enum declaration
(`macros/src/codegen/key_table_enum.rs`) assigned to the variant:
the resolved code of the underlying source key (same offset threading,
transcribed from `update_offset`), plus the modifier-subset sum or the
dual-function offset, with the same `checked_add` guard. -/

def resolveOffsetAt : List SrcKey → Nat → Nat → Option Nat
  | [], _, _ => none
  | k :: ks, off, j =>
    match k.code with
    | some c => if j = 0 then some c else resolveOffsetAt ks c (j - 1)
    | none =>
      if off + 1 ≤ 65535 then
        if j = 0 then some (off + 1) else resolveOffsetAt ks (off + 1) (j - 1)
      else
        if j = 0 then none else resolveOffsetAt ks off (j - 1)

def variantDiscr (v : VariantId) : Option Nat :=
  keycodeTables[v.tableIdx]?.bind fun tb =>
    (resolveOffsetAt tb.keys 0 v.keyIdx).bind fun c =>
      match v.deriv with
      | .base => some c
      | .mods ms => if c + modSum ms ≤ 65535 then some (c + modSum ms) else none
      | .dual m => if c + m.value ≤ 65535 then some (c + m.value) else none

/-- `u16::from(KeyKind)`: the variant's enum discriminant; `Unknown(c)`
encodes back to `c`.  (The `getD 0` default is unreachable: every variant
produced by decoding has a discriminant, see `decodeArms_discr`.) -/
def KeyKind.toU16 : KeyKind → Nat
  | .known v => (variantDiscr v).getD 0
  | .unknown c => c

/-! ### Symbolic names: `FromStr` and `Display`

Transcribed from `macros/src/ir.rs` (which resolves the key list and builds
the derived variants feeding the `FromStr` code generators) and
`macros/src/codegen/impl_from_str_for_key_table_enums.rs` /
`impl_from_str_for_key_kind_enum.rs`. -/

/-- `Key::new` threading of `ir.rs`: `(index, key, resolved code)` triples,
skipping auto keys whose increment would overflow `u16`. -/
def rkGo : Nat → Nat → List SrcKey → List (Nat × SrcKey × Nat)
  | _, _, [] => []
  | i, off, k :: ks =>
    match k.code with
    | some c => (i, k, c) :: rkGo (i + 1) c ks
    | none =>
      if off + 1 ≤ 65535 then (i, k, off + 1) :: rkGo (i + 1) (off + 1) ks
      else rkGo (i + 1) off ks

def resolvedKeys (ks : List SrcKey) : List (Nat × SrcKey × Nat) := rkGo 0 0 ks

/-- `KeyMeta::from_doc`: display name is the trimmed doc comment, falling back
to the identifier.  (The doc strings only ever carry space padding, so an
ASCII-space trim is exact here.) -/
def trimSpaces (s : String) : String :=
  String.mk (((s.toList.dropWhile (· = ' ')).reverse.dropWhile (· = ' ')).reverse)

def displayOf (k : SrcKey) : String :=
  match k.doc with
  | some d => trimSpaces d
  | none => k.name

/-- `char::to_ascii_lowercase`. -/
def lowerAscii (c : Char) : Char :=
  if 'A' ≤ c ∧ c ≤ 'Z' then Char.ofNat (c.toNat + 32) else c

/-- The matcher built from a display name: drop spaces, lowercase
(`impl_from_str_for_key_table_enums.rs`, `display_name_matcher`). -/
def matcherize (s : String) : String :=
  String.mk ((s.toList.filter (· ≠ ' ')).map lowerAscii)

/-- The normalization the generated `from_str` applies to its input:
trim, drop spaces, lowercase. -/
def normalizeSym (s : String) : String :=
  String.mk (((trimSpaces s).toList.filter (· ≠ ' ')).map lowerAscii)

def joinSep (sep : String) : List String → String
  | [] => ""
  | [s] => s
  | s :: ss => s ++ sep ++ joinSep sep ss

/-- A generated variant as the `FromStr`/`Display` code generators see it:
its identity, the raw `#[display]` format-string literal, and the variant
identifier (whose lowercasing is the debug-name matcher). -/
structure GenVariant where
  id : VariantId
  displayRaw : String
  debugName : String
deriving DecidableEq

def baseGroup (tIdx : Nat) (rk : List (Nat × SrcKey × Nat)) : List GenVariant :=
  rk.map fun (i, k, _) => ⟨⟨tIdx, i, .base⟩, displayOf k, k.name⟩

/-- `Key::with_modifiers` over one modifier subset: name is the concatenated
modifier prefix plus the identifier, display is the `" + "`-joined prefix
plus the base display name; overflowing codes are dropped. -/
def modGroup (tIdx : Nat) (rk : List (Nat × SrcKey × Nat)) (ms : List KMod) :
    List GenVariant :=
  rk.filterMap fun (i, k, c) =>
    if c + modSum ms ≤ 65535 then
      some ⟨⟨tIdx, i, .mods ms⟩,
            joinSep " + " (ms.map KMod.str) ++ " + " ++ displayOf k,
            String.join (ms.map KMod.str) ++ k.name⟩
    else none

/-- `Key::with_dual_functions` (`ir.rs`): name `Dual{name}And{modifier:?}`,
display `"{display} / {modifier}"`. -/
def dualGroup (tIdx : Nat) (rk : List (Nat × SrcKey × Nat)) (m : DualFn) :
    List GenVariant :=
  rk.filterMap fun (i, k, c) =>
    if c + m.value ≤ 65535 then
      some ⟨⟨tIdx, i, .dual m⟩,
            displayOf k ++ " / " ++ m.displayStr,
            "Dual" ++ k.name ++ "And" ++ m.debugStr⟩
    else none

/-- The generated variants of one table in declaration order: the base keys,
then `create_keys_with_modifiers` (subset-major over the non-empty powerset),
then `create_keys_with_dual_functions` (modifier-major).  Represented as a
list of groups; concatenating the groups gives exactly the variant order the
generated `from_str` match uses. -/
def variantGroupsOfTable (tIdx : Nat) (tb : SrcTable) : List (List GenVariant) :=
  let rk := resolvedKeys tb.keys
  baseGroup tIdx rk
    :: ((if tb.withMods then modPowersetNE.map (modGroup tIdx rk) else [])
        ++ (if tb.withDuals then DualFn.values.map (dualGroup tIdx rk) else []))

/-- The match arms a variant contributes: the display matcher then the debug
matcher, collapsed when equal. -/
def matchersOf (gv : GenVariant) : List String :=
  let dm := matcherize gv.displayRaw
  let bm := String.mk (gv.debugName.toList.map lowerAscii)
  if dm = bm then [bm] else [dm, bm]

/-- First variant in the group one of whose matchers equals the (normalized)
input — the generated `match` tries the arms in exactly this order. -/
def groupFind (n : String) : List GenVariant → Option VariantId
  | [] => none
  | gv :: gvs => if (matchersOf gv).contains n then some gv.id else groupFind n gvs

def goGroups (n : String) : List (List GenVariant) → Option VariantId
  | [] => none
  | g :: gs =>
    match groupFind n g with
    | some v => some v
    | none => goGroups n gs

/-- The generated `impl FromStr` of one table enum. -/
def tableFromStr (tIdx : Nat) (tb : SrcTable) (s : String) : Option VariantId :=
  goGroups (normalizeSym s) (variantGroupsOfTable tIdx tb)

def goTables (s : String) : Nat → List SrcTable → Option KeyKind
  | _, [] => none
  | t, tb :: tbs =>
    match tableFromStr t tb s with
    | some v => some (.known v)
    | none => goTables s (t + 1) tbs

/-- `KeyKind::from_str`: try every table's `from_str` in declaration order,
first success wins (`impl_from_str_for_key_kind_enum.rs`). -/
def parseSymbol (s : String) : Option KeyKind := goTables s 0 keycodeTables

/-- Rendering of a `#[display("...")]` format string: doubled braces print as
a single brace (only the two `shift_symbols` brace keys use this). -/
def renderFmt : List Char → List Char
  | [] => []
  | '\x7b' :: '\x7b' :: rest => '\x7b' :: renderFmt rest
  | '\x7d' :: '\x7d' :: rest => '\x7d' :: renderFmt rest
  | c :: rest => c :: renderFmt rest

def findVariant (v : VariantId) : List (List GenVariant) → Option GenVariant
  | [] => none
  | g :: gs =>
    match g.find? (fun gv => gv.id == v) with
    | some gv => some gv
    | none => findVariant v gs

/-- The derived `Display` of `KeyKind`: `"{_0}"` delegates to the table enum,
whose variant carries `#[display(<display_name literal>)]`. -/
def KeyKind.displayStr : KeyKind → String
  | .unknown c => "<unknown " ++ toString c ++ ">"
  | .known v =>
    match keycodeTables.get? v.tableIdx with
    | some tb =>
      match findVariant v (variantGroupsOfTable v.tableIdx tb) with
      | some gv => String.mk (renderFmt gv.displayRaw.toList)
      | none => ""
    | none => ""

/-! ## Defy keymap layer codec

Transcribed from `api/src/devices/defy.rs`: the `LAYOUT` constant, the
`From<&DefyLayerData>` decoding impls, `get_key_by_index` and
`to_keymap_data`.  A raw layer (`DefyLayerData = [u16; 80]`) is a
`List Nat`; out-of-range reads (impossible for the in-bounds layout
offsets) default to 0. -/

def leftRow1 : List Nat := [0, 1, 2, 3, 4, 5, 6]

def leftRow2 : List Nat := [16, 17, 18, 19, 20, 21, 22]

def leftRow3 : List Nat := [32, 33, 34, 35, 36, 37, 38]

def leftRow4 : List Nat := [48, 49, 50, 51, 52, 53]

def leftThumbTop : List Nat := [64, 65, 66, 67]

def leftThumbBottom : List Nat := [71, 70, 69, 68]

def rightRow1 : List Nat := [9, 10, 11, 12, 13, 14, 15]

def rightRow2 : List Nat := [25, 26, 27, 28, 29, 30, 31]

def rightRow3 : List Nat := [41, 42, 43, 44, 45, 46, 47]

def rightRow4 : List Nat := [58, 59, 60, 61, 62, 63]

def rightThumbTop : List Nat := [76, 77, 78, 79]

def rightThumbBottom : List Nat := [75, 74, 73, 72]

/-- All offsets of the `LAYOUT` constant, in the order `get_key_by_index`
searches them. -/
def layoutOffsets : List Nat :=
  leftRow1 ++ leftRow2 ++ leftRow3 ++ leftRow4 ++ leftThumbTop ++ leftThumbBottom
    ++ rightRow1 ++ rightRow2 ++ rightRow3 ++ rightRow4 ++ rightThumbTop
    ++ rightThumbBottom

structure DefyThumbKeymap where
  top : List KeyKind
  bottom : List KeyKind

structure DefyKeymapHalf where
  row1 : List KeyKind
  row2 : List KeyKind
  row3 : List KeyKind
  row4 : List KeyKind
  thumb : DefyThumbKeymap

structure DefyKeymapLayer where
  layerNumber : Nat
  left : DefyKeymapHalf
  right : DefyKeymapHalf

/-- One decoded key: `KeyKind::from(layer_data[index])`. -/
def keyAt (data : List Nat) (i : Nat) : KeyKind := KeyKind.fromU16 (data.getD i 0)

/-- `From<&DefyLayerData>` for the keymap structs: every row maps its layout
offsets through the data and decodes. -/
def layerFromData (data : List Nat) : DefyKeymapLayer :=
  { layerNumber := 0
    left :=
      { row1 := leftRow1.map (keyAt data)
        row2 := leftRow2.map (keyAt data)
        row3 := leftRow3.map (keyAt data)
        row4 := leftRow4.map (keyAt data)
        thumb :=
          { top := leftThumbTop.map (keyAt data)
            bottom := leftThumbBottom.map (keyAt data) } }
    right :=
      { row1 := rightRow1.map (keyAt data)
        row2 := rightRow2.map (keyAt data)
        row3 := rightRow3.map (keyAt data)
        row4 := rightRow4.map (keyAt data)
        thumb :=
          { top := rightThumbTop.map (keyAt data)
            bottom := rightThumbBottom.map (keyAt data) } } }

/-- `iter().position(|key_index| key_index == index)`. -/
def posIn (o : Nat) : List Nat → Option Nat
  | [] => none
  | x :: xs => if x = o then some 0 else (posIn o xs).map (· + 1)

/-- One `.or_else` link of `get_key_by_index`: find the offset in a layout
row and return the key stored at that position of the decoded row. -/
def searchRow (row : List Nat) (vals : List KeyKind) (o : Nat) : Option KeyKind :=
  (posIn o row).map fun i => vals.getD i (.unknown 0)

/-- `DefyKeymapLayer::get_key_by_index`: `None` for `index ≥ 80`, otherwise
the `.or_else` chain over the twelve layout rows (left first, then right). -/
def getKeyByIndex (l : DefyKeymapLayer) (i : Nat) : Option KeyKind :=
  if 80 ≤ i then none
  else
    (searchRow leftRow1 l.left.row1 i).orElse fun _ =>
    (searchRow leftRow2 l.left.row2 i).orElse fun _ =>
    (searchRow leftRow3 l.left.row3 i).orElse fun _ =>
    (searchRow leftRow4 l.left.row4 i).orElse fun _ =>
    (searchRow leftThumbTop l.left.thumb.top i).orElse fun _ =>
    (searchRow leftThumbBottom l.left.thumb.bottom i).orElse fun _ =>
    (searchRow rightRow1 l.right.row1 i).orElse fun _ =>
    (searchRow rightRow2 l.right.row2 i).orElse fun _ =>
    (searchRow rightRow3 l.right.row3 i).orElse fun _ =>
    (searchRow rightRow4 l.right.row4 i).orElse fun _ =>
    (searchRow rightThumbTop l.right.thumb.top i).orElse fun _ =>
    searchRow rightThumbBottom l.right.thumb.bottom i

/-- `DefyKeymapLayer::to_keymap_data`: 80 slots, `Some` of the re-encoded key
where `get_key_by_index` finds one, `None` on the padding slots. -/
def toKeymapData (l : DefyKeymapLayer) : List (Option Nat) :=
  (List.range 80).map fun i => (getKeyByIndex l i).map KeyKind.toU16

/-! ## Superkey serializers

Transcribed from `api/src/devices/defy.rs` (`Superkey`,
`SuperkeyMap::to_superkey_map_data`) and
`api/src/focus_api/parsing/superkeys.rs` (`Superkey`,
`SuperkeyMap::to_command_data::<MEMORY_SIZE>`, `superkey_action_parser`).
Both `TooManySuperkeysError` types are modelled by the same Lean type. -/

inductive TooManySuperkeysError where
  | mk
deriving DecidableEq

/-- `KeyKind::Blank(Blank::NoKey)`. -/
def noKeyKind : KeyKind := .known ⟨0, 0, .base⟩

/-- `devices/defy.rs` `Superkey` (the `macro_number` field is ignored by the
serializer). -/
structure Superkey where
  macroNumber : Nat
  tap : Option KeyKind
  hold : Option KeyKind
  tapHold : Option KeyKind
  doubleTap : Option KeyKind
  doubleTapHold : Option KeyKind
deriving DecidableEq

/-- `focus_api/parsing/superkeys.rs` `Superkey` (no `macro_number`). -/
structure RawSuperkey where
  tap : Option KeyKind
  hold : Option KeyKind
  tapHold : Option KeyKind
  doubleTap : Option KeyKind
  doubleTapHold : Option KeyKind
deriving DecidableEq

def Superkey.toRaw (sk : Superkey) : RawSuperkey :=
  ⟨sk.tap, sk.hold, sk.tapHold, sk.doubleTap, sk.doubleTapHold⟩

/-- `action_to_u16` in `devices/defy.rs::Superkey::to_superkey_map_data`. -/
def defyActionToU16 : Option KeyKind → Nat
  | some k => if k = noKeyKind then 1 else k.toU16
  | none => 1

/-- `action_to_u16` in `superkeys.rs::Superkey::to_command_data` (same arms,
`None` listed first). -/
def rawActionToU16 : Option KeyKind → Nat
  | none => 1
  | some k => if k = noKeyKind then 1 else k.toU16

/-- `Superkey::to_superkey_map_data`: five encoded actions plus the `0`
group terminator. -/
def Superkey.toMapData (sk : Superkey) : List Nat :=
  [defyActionToU16 sk.tap, defyActionToU16 sk.hold, defyActionToU16 sk.tapHold,
   defyActionToU16 sk.doubleTap, defyActionToU16 sk.doubleTapHold, 0]

/-- `Superkey::to_command_data` (`superkeys.rs`). -/
def RawSuperkey.toCmdData (sk : RawSuperkey) : List Nat :=
  [rawActionToU16 sk.tap, rawActionToU16 sk.hold, rawActionToU16 sk.tapHold,
   rawActionToU16 sk.doubleTap, rawActionToU16 sk.doubleTapHold, 0]

/-- `SuperkeyMap::to_superkey_map_data` (`devices/defy.rs`): flatten the keys,
push the map-terminating `0`, fail if more than 512 entries, otherwise
`resize(512, u16::MAX)`. -/
def toSuperkeyMapData (m : List Superkey) : Except TooManySuperkeysError (List Nat) :=
  let data := (m.flatMap Superkey.toMapData) ++ [0]
  if 512 < data.length then .error .mk
  else .ok (data ++ List.replicate (512 - data.length) 65535)

/-- `SuperkeyMap::to_command_data::<MEMORY_SIZE>` (`superkeys.rs`): an empty
map short-circuits to all fill values; otherwise flatten, chain the `0`
terminator, fail past capacity, else overwrite the prefix of a
`[u16::MAX; MEMORY_SIZE]` buffer (leaving the fill suffix). -/
def toCommandData (cap : Nat) (m : List RawSuperkey) :
    Except TooManySuperkeysError (List Nat) :=
  if m = [] then .ok (List.replicate cap 65535)
  else
    let sk := (m.flatMap RawSuperkey.toCmdData) ++ [0]
    if cap < sk.length then .error .mk
    else .ok (sk ++ List.replicate (cap - sk.length) 65535)

/-- The per-code part of `superkey_action_parser` (after `dec_uint` reads the
numeric action code): code `1` means no action, a code decoding to
`Blank::NoKey` (i.e. `0`) also means no action, everything else is the
decoded key. -/
def superkeyActionOfCode (c : Nat) : Option KeyKind :=
  if c = 1 then none
  else
    let key := KeyKind.fromU16 c
    if key = noKeyKind then none else some key

/-! ## Focus API response framer

Transcribed from `api/src/parsing/focus_api.rs`.  The parser runs on a
`winnow::Partial` input, so running out of input is the distinct
`Incomplete` outcome rather than a parse error.  The input is a character
list; `repeat_till(1.., line_parser, ".")` parses one line first (the
minimum), then on each iteration tries the `"."` terminator before the next
line.  A non-matching terminator backtracks; an `Incomplete` from either
sub-parser propagates. -/

inductive PResult (α : Type) where
  | ok (val : α) (rest : List Char)
  | incomplete
  | err
deriving DecidableEq

/-- `winnow::ascii::till_line_ending` on partial input: the chars before the
first `\r\n` or `\n` (not consumed); no line ending in sight is
`Incomplete`, a `\r` not followed by `\n` is an error (a final `\r` may
still grow a `\n`, so it is `Incomplete`). -/
def tillLineEnding : List Char → PResult (List Char)
  | [] => .incomplete
  | c :: cs =>
    if c = '\n' then .ok [] (c :: cs)
    else if c = '\r' then
      match cs with
      | [] => .incomplete
      | c2 :: _ => if c2 = '\n' then .ok [] (c :: cs) else .err
    else
      match tillLineEnding cs with
      | .ok l rest => .ok (c :: l) rest
      | .incomplete => .incomplete
      | .err => .err

/-- `winnow::ascii::line_ending` on partial input: `"\n"` or `"\r\n"`. -/
def lineEnding : List Char → PResult Unit
  | [] => .incomplete
  | c :: cs =>
    if c = '\n' then .ok () cs
    else if c = '\r' then
      match cs with
      | [] => .incomplete
      | c2 :: cs2 => if c2 = '\n' then .ok () cs2 else .err
    else .err

/-- `line_parser = terminated(till_line_ending, line_ending)`. -/
def lineParser (cs : List Char) : PResult (List Char) :=
  match tillLineEnding cs with
  | .ok l rest =>
    match lineEnding rest with
    | .ok _ rest2 => .ok l rest2
    | .incomplete => .incomplete
    | .err => .err
  | .incomplete => .incomplete
  | .err => .err

/-- `LineAccumulator::accumulate`: push the line, prefixing `'\n'` unless the
accumulator is still empty. -/
def accAdd (acc l : List Char) : List Char :=
  if acc = [] then l else acc ++ '\n' :: l

/-- The `repeat_till` loop after the first (minimum) line: try the `"."`
terminator — `Incomplete` on empty input, success on a leading `'.'` — then
fall back to another line.  Fuel only bounds the recursion; every iteration
consumes input, so `length + 1` fuel is always enough. -/
def respLoop (acc : List Char) : List Char → Nat → PResult (List Char)
  | _, 0 => .err
  | [], _ + 1 => .incomplete
  | c :: cs, fuel + 1 =>
    if c = '.' then .ok acc cs
    else
      match lineParser (c :: cs) with
      | .ok l rest => respLoop (accAdd acc l) rest fuel
      | .incomplete => .incomplete
      | .err => .err

/-- `response_parser`: one line, then the terminator-first loop. -/
def responseParser (cs : List Char) : PResult (List Char) :=
  match lineParser cs with
  | .ok l rest => respLoop l rest (cs.length + 1)
  | .incomplete => .incomplete
  | .err => .err

inductive RespErr where
  | incomplete
  | err
deriving DecidableEq

/-- `impl FromStr for Response`: run the parser, mapping
`ErrMode::Incomplete` to the distinct `ParseResponseError::Incomplete` and
any other failure to `ParseResponseError::Err`; leftover input after the
consumed terminator is ignored. -/
def parseResponse (cs : List Char) : Except RespErr (List Char) :=
  match responseParser cs with
  | .ok v _ => .ok v
  | .incomplete => .error .incomplete
  | .err => .error .err

/-- One CRLF-terminated line per list element. -/
def renderLines (ls : List (List Char)) : List Char :=
  (ls.map (· ++ ['\r', '\n'])).flatten

/-- A line of the wire protocol: no CR or LF inside. -/
def lineOk (l : List Char) : Prop := '\r' ∉ l ∧ '\n' ∉ l

instance (l : List Char) : Decidable (lineOk l) := by
  unfold lineOk; infer_instance

/-! ## Macro grammar

Transcribed from `api/src/focus_api/parsing/macros.rs`.  All sub-parsers of
this grammar read whole space-terminated decimal tokens (`(dec_uint, " ")`
and the literals `"0 "` / `"255 "`), so the input is modelled as the list of
token values; `u8_parser` fails when the token overflows `u8`.  The input
here is complete (`&str`, not `Partial`), so failures are plain `none`. -/

inductive RawActionData where
  | oneU16 (v : Nat)
  | twoU16 (a b : Nat)
deriving DecidableEq

inductive MacroAction where
  | press (k : KeyKind)
  | keyDown (k : KeyKind)
  | keyUp (k : KeyKind)
  | unknownAct (kind : Nat) (data : RawActionData)
deriving DecidableEq

/-- A `Macro` is its action list. -/
abbrev MacroActs := List MacroAction

/-- `u8_parser`: one decimal token followed by a space; `dec_uint::<u8>`
fails on values above 255. -/
def u8Tok : List Nat → Option (Nat × List Nat)
  | [] => none
  | t :: ts => if t ≤ 255 then some (t, ts) else none

/-- `u16::from_ne_bytes` on the reference (little-endian) platform. -/
def u16FromNeBytes (b0 b1 : Nat) : Nat := b0 + 256 * b1

/-- `u16::to_ne_bytes` on the reference (little-endian) platform. -/
def u16ToNeBytes (n : Nat) : List Nat := [n % 256, n / 256]

/-- `u16_parser`: two sequential `u8` tokens composed with native byte
order. -/
def u16Tok (ts : List Nat) : Option (Nat × List Nat) :=
  (u8Tok ts).bind fun (hb, ts1) =>
    (u8Tok ts1).bind fun (lb, ts2) => some (u16FromNeBytes hb lb, ts2)

/-- Whether a byte is a valid action discriminant (`(1..=8).contains`). -/
def validKind (k : Nat) : Prop := 1 ≤ k ∧ k ≤ 8

instance (k : Nat) : Decidable (validKind k) := by
  unfold validKind; infer_instance

/-- The dispatch on the (possibly re-read) discriminant in `action_parser`. -/
def actionDispatch (kind : Nat) (ts : List Nat) : Option (MacroAction × List Nat) :=
  if kind = 1 then
    (u16Tok ts).bind fun (d1, t1) =>
      (u16Tok t1).bind fun (d2, t2) => some (.unknownAct 1 (.twoU16 d1 d2), t2)
  else if 2 ≤ kind ∧ kind ≤ 5 then
    (u16Tok ts).bind fun (d, t) => some (.unknownAct kind (.oneU16 d), t)
  else if kind = 6 then
    (u8Tok ts).bind fun (b, t) => some (.keyDown (KeyKind.fromU16 b), t)
  else if kind = 7 then
    (u8Tok ts).bind fun (b, t) => some (.keyUp (KeyKind.fromU16 b), t)
  else if kind = 8 then
    (u8Tok ts).bind fun (b, t) => some (.press (KeyKind.fromU16 b), t)
  else none

/-- `action_parser`: read a discriminant byte; if it is outside `1..=8`,
discard it and read the next byte as the real discriminant, then
dispatch. -/
def actionTok (ts : List Nat) : Option (MacroAction × List Nat) :=
  (u8Tok ts).bind fun (k0, ts1) =>
    if validKind k0 then actionDispatch k0 ts1
    else (u8Tok ts1).bind fun (k1, ts2) => actionDispatch k1 ts2

/-- The `repeat_till(1.., action_parser, "0 ")` loop after the first action:
each iteration tries the `"0 "` terminator first, then parses another
action. -/
def macroActsLoop : List Nat → Nat → Option (MacroActs × List Nat)
  | _, 0 => none
  | 0 :: rest, _ + 1 => some ([], rest)
  | ts, fuel + 1 =>
    (actionTok ts).bind fun (a, rest) =>
      (macroActsLoop rest fuel).map fun p => (a :: p.1, p.2)

/-- `macro_parser`: at least one action, then the terminator-first loop. -/
def macroTok (ts : List Nat) (fuel : Nat) : Option (MacroActs × List Nat) :=
  (actionTok ts).bind fun (a, rest) =>
    (macroActsLoop rest fuel).map fun p => (a :: p.1, p.2)

/-- `repeat_till(0.., macro_parser, "0 ")` (also the loop of the `1..` outer
variant after its first macro): terminator first, then another macro. -/
def macroListLoop : List Nat → Nat → Option (List MacroActs × List Nat)
  | _, 0 => none
  | 0 :: rest, _ + 1 => some ([], rest)
  | ts, fuel + 1 =>
    (macroTok ts fuel).bind fun (m, rest) =>
      (macroListLoop rest fuel).map fun p => (m :: p.1, p.2)

/-- `repeat(0.., repeat_till(0.., macro_parser, "0 "))`: collect inner macro
lists until one fails, never failing itself. -/
def extrasLoop : List Nat → Nat → List (List MacroActs) × List Nat
  | ts, 0 => ([], ts)
  | ts, fuel + 1 =>
    match macroListLoop ts fuel with
    | some (ms, rest) =>
      let p := extrasLoop rest fuel
      (ms :: p.1, p.2)
    | none => ([], ts)

/-- `repeat(0.., "255 ")`: consume the trailing sentinel run. -/
def sentinelsLoop : List Nat → List Nat
  | 255 :: rest => sentinelsLoop rest
  | ts => ts

/-- `parse_macros`: the main macro list (`repeat_till(1..)`), the extra macro
lists, the `255` sentinel run, and the implicit end-of-input check of
`Parser::parse`. -/
def parseMacros (ts : List Nat) :
    Option (List MacroActs × List (List MacroActs)) :=
  (macroTok ts (ts.length + 1)).bind fun (m, r1) =>
    (macroListLoop r1 (r1.length + 1)).bind fun (ms, r2) =>
      let p := extrasLoop r2 (r2.length + 1)
      if sentinelsLoop p.2 = [] then some (m :: ms, p.1) else none

/-! ### Action-start positions and stray-byte injection

`parseStarts ts` collects every suffix of `ts` at which `action_parser`
begins during a parse of `ts`; `insertBefore ts t b` inserts the token `b`
directly before the suffix `t`. -/

def actsLoopStarts : List Nat → Nat → List (List Nat)
  | _, 0 => []
  | 0 :: _, _ + 1 => []
  | ts, fuel + 1 =>
    ts :: (match actionTok ts with
      | some (_, rest) => actsLoopStarts rest fuel
      | none => [])

def macroTokStarts (ts : List Nat) (fuel : Nat) : List (List Nat) :=
  ts :: (match actionTok ts with
    | some (_, rest) => actsLoopStarts rest fuel
    | none => [])

def macroListLoopStarts : List Nat → Nat → List (List Nat)
  | _, 0 => []
  | 0 :: _, _ + 1 => []
  | ts, fuel + 1 =>
    macroTokStarts ts fuel ++ (match macroTok ts fuel with
      | some (_, rest) => macroListLoopStarts rest fuel
      | none => [])

def extrasStarts : List Nat → Nat → List (List Nat)
  | _, 0 => []
  | ts, fuel + 1 =>
    match macroListLoop ts fuel with
    | some (_, rest) => macroListLoopStarts ts fuel ++ extrasStarts rest fuel
    | none => []

def parseStarts (ts : List Nat) : List (List Nat) :=
  macroTokStarts ts (ts.length + 1) ++ (match macroTok ts (ts.length + 1) with
    | some (_, r1) =>
      macroListLoopStarts r1 (r1.length + 1) ++ (match macroListLoop r1 (r1.length + 1) with
        | some (_, r2) => extrasStarts r2 (r2.length + 1)
        | none => [])
    | none => [])

/-- Insert `b` directly before the suffix `t` of `u`. -/
def insertBefore (u t : List Nat) (b : Nat) : List Nat :=
  u.take (u.length - t.length) ++ b :: t

/-- The suffix starts with a valid discriminant byte. -/
def validHead : List Nat → Prop
  | [] => False
  | k :: _ => validKind k

instance (ts : List Nat) : Decidable (validHead ts) := by
  cases ts <;> unfold validHead <;> infer_instance

instance {e a : Type} [DecidableEq e] [DecidableEq a] : DecidableEq (Except e a) := fun x y =>
  match x, y with
  | .ok v, .ok w =>
    if h : v = w then isTrue (by rw [h]) else isFalse (fun hc => h (Except.ok.inj hc))
  | .error v, .error w =>
    if h : v = w then isTrue (by rw [h]) else isFalse (fun hc => h (Except.error.inj hc))
  | .ok _, .error _ => isFalse (fun hc => Except.noConfusion hc)
  | .error _, .ok _ => isFalse (fun hc => Except.noConfusion hc)

/-! # Theorems -/

/-! ## Key-code table: decode arms agree with the enum discriminants -/

theorem armsForKey_discr {t i : Nat} {wM wD : Bool} {c : Nat} {tb : SrcTable}
    (ht : keycodeTables[t]? = some tb)
    (hres : resolveOffsetAt tb.keys 0 i = some c) :
    ∀ e ∈ armsForKey t i wM wD c, variantDiscr e.1 = some e.2 := by
  intro e he
  unfold armsForKey at he
  rcases List.mem_cons.mp he with rfl | he
  · simp [variantDiscr, ht, hres]
  · rcases List.mem_append.mp he with h | h
    · rcases wM with _ | _
      · simp at h
      · rw [if_pos rfl] at h
        obtain ⟨ms, _, hf⟩ := List.mem_filterMap.mp h
        by_cases hle : c + modSum ms ≤ 65535
        · rw [if_pos hle] at hf
          cases hf
          simp [variantDiscr, ht, hres, hle]
        · rw [if_neg hle] at hf
          cases hf
    · rcases wD with _ | _
      · simp at h
      · rw [if_pos rfl] at h
        obtain ⟨m, _, hf⟩ := List.mem_filterMap.mp h
        by_cases hle : c + m.value ≤ 65535
        · rw [if_pos hle] at hf
          cases hf
          simp [variantDiscr, ht, hres, hle]
        · rw [if_neg hle] at hf
          cases hf

theorem armsOfKeys_discr {t : Nat} {tb : SrcTable}
    (ht : keycodeTables[t]? = some tb) :
    ∀ (ks : List SrcKey) (i off : Nat),
      (∀ p, resolveOffsetAt ks off p = resolveOffsetAt tb.keys 0 (i + p)) →
      ∀ e ∈ armsOfKeys t tb.withMods tb.withDuals i off ks,
        variantDiscr e.1 = some e.2 := by
  intro ks
  induction ks with
  | nil =>
    intro i off _ e he
    simp [armsOfKeys] at he
  | cons k ks ih =>
    intro i off hinv e he
    cases hk : k.code with
    | some c =>
      have hres : resolveOffsetAt tb.keys 0 i = some c := by
        have h0 := hinv 0
        rw [Nat.add_zero] at h0
        rw [← h0]
        simp [resolveOffsetAt, hk]
      simp only [armsOfKeys, hk] at he
      rcases List.mem_append.mp he with h | h
      · exact armsForKey_discr ht hres e h
      · refine ih (i + 1) c ?_ e h
        intro p
        have hp := hinv (p + 1)
        rw [show i + (p + 1) = i + 1 + p by omega] at hp
        rw [← hp]
        simp [resolveOffsetAt, hk]
    | none =>
      by_cases hof : off + 1 ≤ 65535
      · have hres : resolveOffsetAt tb.keys 0 i = some (off + 1) := by
          have h0 := hinv 0
          rw [Nat.add_zero] at h0
          rw [← h0]
          simp [resolveOffsetAt, hk, hof]
        simp only [armsOfKeys, hk, if_pos hof] at he
        rcases List.mem_append.mp he with h | h
        · exact armsForKey_discr ht hres e h
        · refine ih (i + 1) (off + 1) ?_ e h
          intro p
          have hp := hinv (p + 1)
          rw [show i + (p + 1) = i + 1 + p by omega] at hp
          rw [← hp]
          simp [resolveOffsetAt, hk, hof]
      · simp only [armsOfKeys, hk, if_neg hof] at he
        refine ih (i + 1) off ?_ e he
        intro p
        have hp := hinv (p + 1)
        rw [show i + (p + 1) = i + 1 + p by omega] at hp
        rw [← hp]
        simp [resolveOffsetAt, hk, hof]

/-- Every arm of `decodeArms` carries exactly the discriminant that the
generated enum declaration assigns to its variant. -/
theorem decodeArms_discr : ∀ e ∈ decodeArms, variantDiscr e.1 = some e.2 := by
  intro e he
  unfold decodeArms at he
  obtain ⟨l, hl, hel⟩ := List.mem_flatten.mp he
  obtain ⟨⟨t, tb⟩, htm, rfl⟩ := List.mem_map.mp hl
  have ht : keycodeTables[t]? = some tb := List.mem_enum_iff_getElem?.mp htm
  exact armsOfKeys_discr ht tb.keys 0 0 (fun p => by rw [Nat.zero_add]) e hel

/-- Decode-then-encode is the identity on every code. -/
theorem toU16_fromU16 (c : Nat) : (KeyKind.fromU16 c).toU16 = c := by
  unfold KeyKind.fromU16
  cases h : decodeArms.find? (fun e => e.2 == c) with
  | none => rfl
  | some e =>
    have hmem := List.mem_of_find?_eq_some h
    have hc : e.2 = c := by simpa using List.find?_some h
    have hd := decodeArms_discr e hmem
    simp [KeyKind.toU16, hd, hc]

theorem armsForKey_shape {t i : Nat} {wM wD : Bool} {c : Nat} :
    ∀ e ∈ armsForKey t i wM wD c, e.1.tableIdx = t ∧ e.1.keyIdx = i := by
  intro e he
  unfold armsForKey at he
  rcases List.mem_cons.mp he with rfl | he
  · exact ⟨rfl, rfl⟩
  · rcases List.mem_append.mp he with h | h
    · rcases wM with _ | _
      · simp at h
      · rw [if_pos rfl] at h
        obtain ⟨ms, _, hf⟩ := List.mem_filterMap.mp h
        by_cases hle : c + modSum ms ≤ 65535
        · rw [if_pos hle] at hf; cases hf; exact ⟨rfl, rfl⟩
        · rw [if_neg hle] at hf; cases hf
    · rcases wD with _ | _
      · simp at h
      · rw [if_pos rfl] at h
        obtain ⟨m, _, hf⟩ := List.mem_filterMap.mp h
        by_cases hle : c + m.value ≤ 65535
        · rw [if_pos hle] at hf; cases hf; exact ⟨rfl, rfl⟩
        · rw [if_neg hle] at hf; cases hf

theorem armsOfKeys_tableIdx {t : Nat} {wM wD : Bool} :
    ∀ (ks : List SrcKey) (i off : Nat),
      ∀ e ∈ armsOfKeys t wM wD i off ks, e.1.tableIdx = t := by
  intro ks
  induction ks with
  | nil => intro i off e he; simp [armsOfKeys] at he
  | cons k ks ih =>
    intro i off e he
    cases hk : k.code with
    | some c =>
      simp only [armsOfKeys, hk] at he
      rcases List.mem_append.mp he with h | h
      · exact (armsForKey_shape e h).1
      · exact ih (i + 1) c e h
    | none =>
      by_cases hof : off + 1 ≤ 65535
      · simp only [armsOfKeys, hk, if_pos hof] at he
        rcases List.mem_append.mp he with h | h
        · exact (armsForKey_shape e h).1
        · exact ih (i + 1) (off + 1) e h
      · simp only [armsOfKeys, hk, if_neg hof] at he
        exact ih (i + 1) off e he

/-- Only the code 0 decodes to the `Blank::NoKey` variant. -/
theorem decodeArms_noKey :
    ∀ e ∈ decodeArms, e.1 = ⟨0, 0, .base⟩ → e.2 = 0 := by
  intro e he hv
  unfold decodeArms at he
  obtain ⟨l, hl, hel⟩ := List.mem_flatten.mp he
  obtain ⟨⟨t, tb⟩, htm, rfl⟩ := List.mem_map.mp hl
  have ht : keycodeTables[t]? = some tb := List.mem_enum_iff_getElem?.mp htm
  have htt : t = 0 := by
    have h2 := armsOfKeys_tableIdx tb.keys 0 0 e hel
    rw [hv] at h2
    exact h2.symm
  subst htt
  have hblank : tb = ⟨"blank", false, false, blankKeys⟩ := by
    have hb : keycodeTables[(0 : Nat)]? = some (⟨"blank", false, false, blankKeys⟩ : SrcTable) := rfl
    rw [hb] at ht
    exact (Option.some.inj ht).symm
  subst hblank
  have hel2 : e ∈ ([(⟨0, 0, .base⟩, 0), (⟨0, 1, .base⟩, 65535)] : List (VariantId × Nat)) := hel
  rcases List.mem_cons.mp hel2 with rfl | hel3
  · rfl
  · rcases List.mem_cons.mp hel3 with heq | hel4
    · rw [heq] at hv
      simp at hv
    · simp at hel4

/-- C1: for every 16-bit code `c`, decoding through the key-code table
(`KeyKind::from(u16)`) and encoding back (`u16::from(KeyKind)`) yields `c`
again; decode is total: every code either hits a decode arm (whose variant
re-encodes to the code) or falls back to `Unknown(c)`, which encodes back to
`c`. -/
theorem c1_keycode_roundtrip :
    (∀ c : Nat, c < 65536 → (KeyKind.fromU16 c).toU16 = c)
    ∧ (∀ c : Nat,
        (∃ e, decodeArms.find? (fun e => e.2 == c) = some e
            ∧ KeyKind.fromU16 c = .known e.1 ∧ e.2 = c)
        ∨ (KeyKind.fromU16 c = .unknown c ∧ (KeyKind.unknown c).toU16 = c)) := by
  constructor
  · intro c _
    exact toU16_fromU16 c
  · intro c
    cases h : decodeArms.find? (fun e => e.2 == c) with
    | none =>
      right
      constructor
      · unfold KeyKind.fromU16
        rw [h]
      · rfl
    | some e =>
      left
      refine ⟨e, rfl, ?_, by simpa using List.find?_some h⟩
      unfold KeyKind.fromU16
      rw [h]

theorem c1_keycode_roundtrip_witness :
    (KeyKind.fromU16 44).toU16 = 44
    ∧ ((∃ e, decodeArms.find? (fun e => e.2 == 44) = some e
          ∧ KeyKind.fromU16 44 = .known e.1 ∧ e.2 = 44)
       ∨ (KeyKind.fromU16 44 = .unknown 44 ∧ (KeyKind.unknown 44).toU16 = 44)) :=
  ⟨c1_keycode_roundtrip.1 44 (by decide), c1_keycode_roundtrip.2 44⟩

/-! ## Defy keymap layer round trip -/

theorem searchRow_map (row : List Nat) (f : Nat → KeyKind) (o : Nat) :
    searchRow row (row.map f) o = if o ∈ row then some (f o) else none := by
  induction row with
  | nil => simp [searchRow, posIn]
  | cons x xs ih =>
    by_cases hx : x = o
    · subst hx
      simp [searchRow, posIn]
    · have hstep : searchRow (x :: xs) ((x :: xs).map f) o
          = searchRow xs (xs.map f) o := by
        unfold searchRow
        rw [show posIn o (x :: xs) = (posIn o xs).map (· + 1) by
              conv_lhs => rw [posIn]
              rw [if_neg hx]]
        rw [Option.map_map]
        exact congrArg (fun g => Option.map g (posIn o xs)) (funext fun i => rfl)
      rw [hstep, ih]
      by_cases hm : o ∈ xs
      · rw [if_pos hm, if_pos (List.mem_cons_of_mem x hm)]
      · rw [if_neg hm, if_neg (fun hc => by
          rcases List.mem_cons.mp hc with rfl | hc2
          · exact hx rfl
          · exact hm hc2)]

theorem getKeyByIndex_layout (data : List Nat) (o : Nat) (ho : o < 80) :
    getKeyByIndex (layerFromData data) o =
      if o ∈ layoutOffsets then some (keyAt data o) else none := by
  have h80 : ¬ 80 ≤ o := by omega
  unfold getKeyByIndex layerFromData
  rw [if_neg h80]
  simp only []
  rw [searchRow_map, searchRow_map, searchRow_map, searchRow_map, searchRow_map,
      searchRow_map, searchRow_map, searchRow_map, searchRow_map, searchRow_map,
      searchRow_map, searchRow_map]
  simp only [layoutOffsets, List.mem_append]
  by_cases h1 : o ∈ leftRow1
  · simp [h1, Option.orElse]
  by_cases h2 : o ∈ leftRow2
  · simp [h1, h2, Option.orElse]
  by_cases h3 : o ∈ leftRow3
  · simp [h1, h2, h3, Option.orElse]
  by_cases h4 : o ∈ leftRow4
  · simp [h1, h2, h3, h4, Option.orElse]
  by_cases h5 : o ∈ leftThumbTop
  · simp [h1, h2, h3, h4, h5, Option.orElse]
  by_cases h6 : o ∈ leftThumbBottom
  · simp [h1, h2, h3, h4, h5, h6, Option.orElse]
  by_cases h7 : o ∈ rightRow1
  · simp [h1, h2, h3, h4, h5, h6, h7, Option.orElse]
  by_cases h8 : o ∈ rightRow2
  · simp [h1, h2, h3, h4, h5, h6, h7, h8, Option.orElse]
  by_cases h9 : o ∈ rightRow3
  · simp [h1, h2, h3, h4, h5, h6, h7, h8, h9, Option.orElse]
  by_cases h10 : o ∈ rightRow4
  · simp [h1, h2, h3, h4, h5, h6, h7, h8, h9, h10, Option.orElse]
  by_cases h11 : o ∈ rightThumbTop
  · simp [h1, h2, h3, h4, h5, h6, h7, h8, h9, h10, h11, Option.orElse]
  by_cases h12 : o ∈ rightThumbBottom
  · simp [h1, h2, h3, h4, h5, h6, h7, h8, h9, h10, h11, h12, Option.orElse]
  simp [h1, h2, h3, h4, h5, h6, h7, h8, h9, h10, h11, h12, Option.orElse]

/-- C2: decoding an 80-entry layer of 16-bit codes into a `DefyKeymapLayer`
and re-serializing with `to_keymap_data` yields `Some` of exactly the
original code at every offset of the static `LAYOUT`, and `None` at each of
the 10 offsets the `LAYOUT` does not list, regardless of the data there. -/
theorem c2_keymap_layer_roundtrip :
    ∀ data : List Nat, data.length = 80 → (∀ x ∈ data, x < 65536) →
      ((List.range 80).filter (fun o => o ∉ layoutOffsets)).length = 10
      ∧ ∀ o : Nat, o < 80 →
          (toKeymapData (layerFromData data)).getD o none =
            if o ∈ layoutOffsets then some (data.getD o 0) else none := by
  intro data _ _
  refine ⟨by decide, ?_⟩
  intro o ho
  have hmap : (toKeymapData (layerFromData data)).getD o none
      = (getKeyByIndex (layerFromData data) o).map KeyKind.toU16 := by
    unfold toKeymapData
    rw [List.getD_eq_getElem?_getD, List.getElem?_map,
        List.getElem?_range ho]
    rfl
  rw [hmap, getKeyByIndex_layout data o ho]
  by_cases hmem : o ∈ layoutOffsets
  · rw [if_pos hmem, if_pos hmem]
    unfold keyAt
    exact congrArg some (toU16_fromU16 (data.getD o 0))
  · rw [if_neg hmem, if_neg hmem]
    rfl

theorem c2_keymap_layer_roundtrip_witness :
    (toKeymapData (layerFromData (List.range 80))).getD 5 none = some 5
    ∧ (toKeymapData (layerFromData (List.range 80))).getD 7 none = none := by
  have h := c2_keymap_layer_roundtrip (List.range 80) (by decide) (by decide)
  constructor
  · rw [h.2 5 (by decide)]
    decide
  · rw [h.2 7 (by decide)]
    decide

/-- C9: the 70 offsets of the static `LAYOUT` constant are pairwise distinct
and all below 80, so each wire-format slot belongs to at most one logical
key position and keymap decoding never indexes outside an 80-entry layer. -/
theorem c9_layout_offsets :
    layoutOffsets.Nodup ∧ layoutOffsets.length = 70
      ∧ layoutOffsets.all (fun o => o < 80) = true := by decide

/-! ## Superkey serialization -/

theorem toMapData_length (sk : Superkey) : (Superkey.toMapData sk).length = 6 := rfl

theorem flatMap_toMapData_length (m : List Superkey) :
    (m.flatMap Superkey.toMapData).length = 6 * m.length := by
  induction m with
  | nil => rfl
  | cons k ks ih =>
    rw [List.flatMap_cons, List.length_append, ih, List.length_cons,
        toMapData_length]
    ring

theorem toCmdData_length (sk : RawSuperkey) : (RawSuperkey.toCmdData sk).length = 6 := rfl

theorem flatMap_toCmdData_length (m : List RawSuperkey) :
    (m.flatMap RawSuperkey.toCmdData).length = 6 * m.length := by
  induction m with
  | nil => rfl
  | cons k ks ih =>
    rw [List.flatMap_cons, List.length_append, ih, List.length_cons,
        toCmdData_length]
    ring

/-- C3 as stated is false at the empty map: `to_command_data` serializes it
as 512 fill values with no `0` terminator, so the output is not the encoded
data (a lone `0`) right-padded with the fill sentinel. -/
theorem c3_counterexample :
    toCommandData 512 [] = .ok (List.replicate 512 65535)
    ∧ List.replicate 512 (65535 : Nat)
        ≠ ([] : List RawSuperkey).flatMap RawSuperkey.toCmdData ++ [0]
            ++ List.replicate (512 - (6 * 0 + 1)) 65535 := by
  constructor
  · rfl
  · decide

/-- C3 (amended): serializing a `SuperkeyMap` to the 512-slot wire block
fails with `TooManySuperkeysError` exactly when the encoded data (6 values
per superkey plus one trailing `0` map terminator) exceeds 512 entries, and
never truncates.  On success the output has exactly 512 values and is the
encoded data right-padded with the fill sentinel 65535 — unconditionally for
`to_superkey_map_data`, and for every non-empty map for `to_command_data`
(which serializes the empty map as 512 fill values without the
terminator). -/
theorem c3_superkey_capacity :
    (∀ m : List Superkey,
      (toSuperkeyMapData m = .error .mk ↔ 512 < 6 * m.length + 1)
      ∧ ∀ out, toSuperkeyMapData m = .ok out →
          out.length = 512
          ∧ out = m.flatMap Superkey.toMapData ++ [0]
              ++ List.replicate (512 - (6 * m.length + 1)) 65535)
    ∧ (∀ m : List RawSuperkey,
      (toCommandData 512 m = .error .mk ↔ 512 < 6 * m.length + 1)
      ∧ (m ≠ [] → ∀ out, toCommandData 512 m = .ok out →
          out.length = 512
          ∧ out = m.flatMap RawSuperkey.toCmdData ++ [0]
              ++ List.replicate (512 - (6 * m.length + 1)) 65535)) := by
  constructor
  · intro m
    have hlen : (m.flatMap Superkey.toMapData ++ [0]).length = 6 * m.length + 1 := by
      rw [List.length_append, flatMap_toMapData_length]
      rfl
    simp only [toSuperkeyMapData]
    rw [hlen]
    by_cases hc : 512 < 6 * m.length + 1
    · rw [if_pos hc]
      refine ⟨⟨(fun _ => hc), (fun _ => rfl)⟩, ?_⟩
      intro out hout
      cases hout
    · rw [if_neg hc]
      refine ⟨⟨(fun h => by cases h), (fun h => absurd h hc)⟩, ?_⟩
      intro out hout
      injection hout with hout
      subst hout
      constructor
      · rw [List.length_append, hlen, List.length_replicate]
        omega
      · rw [List.append_assoc]
  · intro m
    by_cases hm : m = []
    · subst hm
      refine ⟨⟨(fun h => by cases h), (fun h => absurd h (by decide))⟩, (fun h => absurd rfl h)⟩
    · have hlen : (m.flatMap RawSuperkey.toCmdData ++ [0]).length = 6 * m.length + 1 := by
        rw [List.length_append, flatMap_toCmdData_length]
        rfl
      simp only [toCommandData]
      rw [if_neg hm, hlen]
      by_cases hc : 512 < 6 * m.length + 1
      · rw [if_pos hc]
        refine ⟨⟨(fun _ => hc), (fun _ => rfl)⟩, ?_⟩
        intro _ out hout
        cases hout
      · rw [if_neg hc]
        refine ⟨⟨(fun h => by cases h), (fun h => absurd h hc)⟩, ?_⟩
        intro _ out hout
        injection hout with hout
        subst hout
        constructor
        · rw [List.length_append, hlen, List.length_replicate]
          omega
        · rw [List.append_assoc]

theorem c3_superkey_capacity_witness :
    ([1, 1, 1, 1, 1, 0, 0] ++ List.replicate 505 (65535 : Nat)).length = 512
    ∧ [1, 1, 1, 1, 1, 0, 0] ++ List.replicate 505 (65535 : Nat)
        = [(⟨0, none, none, none, none, none⟩ : Superkey)].flatMap Superkey.toMapData
            ++ [0]
            ++ List.replicate
                (512 - (6 * [(⟨0, none, none, none, none, none⟩ : Superkey)].length + 1))
                65535 :=
  (c3_superkey_capacity.1 [⟨0, none, none, none, none, none⟩]).2 _ (by decide)

theorem rawAction_eq_defyAction (k : Option KeyKind) :
    rawActionToU16 k = defyActionToU16 k := by
  cases k <;> rfl

theorem toRaw_cmdData (sk : Superkey) :
    RawSuperkey.toCmdData (Superkey.toRaw sk) = Superkey.toMapData sk := by
  cases sk
  simp [RawSuperkey.toCmdData, Superkey.toMapData, Superkey.toRaw,
        rawAction_eq_defyAction]

/-- C10 as stated is false on the map with zero superkeys: `to_command_data`
emits 512 fill values while `to_superkey_map_data` emits the `0` terminator
followed by 511 fill values. -/
theorem c10_counterexample :
    toCommandData 512 (([] : List Superkey).map Superkey.toRaw)
      ≠ toSuperkeyMapData [] := by decide

/-- C10 (amended): the two superkey serializers produce identical 512-value
results (and identical overflow errors) for every map holding the same
non-empty list of superkeys; they disagree only on the empty map. -/
theorem c10_superkey_serializers :
    (∀ m : List Superkey, m ≠ [] →
        toCommandData 512 (m.map Superkey.toRaw) = toSuperkeyMapData m)
    ∧ (∀ m : List Superkey,
        (toCommandData 512 (m.map Superkey.toRaw) = .error .mk
          ↔ toSuperkeyMapData m = .error .mk)) := by
  have hdata : ∀ m : List Superkey,
      (m.map Superkey.toRaw).flatMap RawSuperkey.toCmdData
        = m.flatMap Superkey.toMapData := by
    intro m
    rw [List.flatMap_map]
    simp only [toRaw_cmdData]
  have hmain : ∀ m : List Superkey, m ≠ [] →
      toCommandData 512 (m.map Superkey.toRaw) = toSuperkeyMapData m := by
    intro m hm
    simp only [toCommandData, toSuperkeyMapData]
    rw [if_neg (by simpa using hm), hdata]
  refine ⟨hmain, ?_⟩
  intro m
  by_cases hm : m = []
  · subst hm
    decide
  · rw [hmain m hm]

theorem c10_superkey_serializers_witness :
    toCommandData 512 ([(⟨0, none, none, none, none, none⟩ : Superkey)].map Superkey.toRaw)
      = toSuperkeyMapData [⟨0, none, none, none, none, none⟩] :=
  c10_superkey_serializers.1 [⟨0, none, none, none, none, none⟩] (by decide)

/-! ## Superkey action codes -/

/-- C6: in the superkey grammar both the action code 1 and the
`Blank::NoKey` code 0 decode to no action, encoding a missing action (or an
explicit `Blank::NoKey`) always produces 1, and decode-then-encode is
idempotent on every 16-bit action code. -/
theorem c6_superkey_action_codes :
    superkeyActionOfCode 1 = none
    ∧ superkeyActionOfCode 0 = none
    ∧ rawActionToU16 none = 1
    ∧ defyActionToU16 none = 1
    ∧ rawActionToU16 (some noKeyKind) = 1
    ∧ defyActionToU16 (some noKeyKind) = 1
    ∧ ∀ c : Nat, c < 65536 →
        rawActionToU16 (superkeyActionOfCode (rawActionToU16 (superkeyActionOfCode c)))
          = rawActionToU16 (superkeyActionOfCode c) := by
  have henc : ∀ c : Nat, c ≠ 0 → c ≠ 1 → rawActionToU16 (superkeyActionOfCode c) = c := by
    intro c h0 h1
    have hdef : superkeyActionOfCode c
        = if KeyKind.fromU16 c = noKeyKind then none else some (KeyKind.fromU16 c) := by
      unfold superkeyActionOfCode
      rw [if_neg h1]
    rw [hdef]
    by_cases hnk : KeyKind.fromU16 c = noKeyKind
    · exfalso
      unfold KeyKind.fromU16 at hnk
      cases h : decodeArms.find? (fun e => e.2 == c) with
      | none =>
        rw [h] at hnk
        exact KeyKind.noConfusion
          (show KeyKind.unknown c = KeyKind.known ⟨0, 0, .base⟩ from hnk)
      | some e =>
        rw [h] at hnk
        have he1 : e.1 = ⟨0, 0, .base⟩ := by
          have h2 : KeyKind.known e.1 = KeyKind.known ⟨0, 0, .base⟩ := hnk
          exact KeyKind.known.inj h2
        have hz := decodeArms_noKey e (List.mem_of_find?_eq_some h) he1
        have hc : e.2 = c := by simpa using List.find?_some h
        omega
    · rw [if_neg hnk]
      show (if KeyKind.fromU16 c = noKeyKind then 1 else (KeyKind.fromU16 c).toU16) = c
      rw [if_neg hnk]
      exact toU16_fromU16 c
  refine ⟨rfl, rfl, rfl, rfl, rfl, rfl, ?_⟩
  intro c _
  by_cases h1 : c = 1
  · subst h1
    rfl
  by_cases h0 : c = 0
  · subst h0
    rfl
  rw [henc c h0 h1]
  exact henc c h0 h1

theorem c6_superkey_action_codes_witness :
    rawActionToU16 (superkeyActionOfCode (rawActionToU16 (superkeyActionOfCode 44)))
      = rawActionToU16 (superkeyActionOfCode 44) :=
  c6_superkey_action_codes.2.2.2.2.2.2 44 (by decide)

/-! ## Macro grammar: two-byte u16 composition -/

/-- C8: the macro grammar's u16 sub-parser composes the two sequentially
read decimal bytes with `u16::from_ne_bytes`, so parsing the rendering of
`n.to_ne_bytes()` (first byte, then second byte) yields `n` again. -/
theorem c8_u16_native_byte_order :
    (∀ (b0 b1 : Nat) (rest : List Nat), b0 ≤ 255 → b1 ≤ 255 →
        u16Tok (b0 :: b1 :: rest) = some (u16FromNeBytes b0 b1, rest))
    ∧ (∀ (n : Nat) (rest : List Nat), n < 65536 →
        u16Tok (u16ToNeBytes n ++ rest) = some (n, rest)) := by
  constructor
  · intro b0 b1 rest h0 h1
    simp [u16Tok, u8Tok, h0, h1]
  · intro n rest hn
    have h0 : n % 256 ≤ 255 := by omega
    have h1 : n / 256 ≤ 255 := by omega
    simp [u16ToNeBytes, u16Tok, u8Tok, h0, h1, u16FromNeBytes]
    omega

theorem c8_u16_native_byte_order_witness :
    u16Tok (u16ToNeBytes 512 ++ []) = some (512, []) :=
  c8_u16_native_byte_order.2 512 [] (by decide)

/-! ## Symbolic name round trip -/

/-- C5: the symbol round trip fails on the code as written.  The doc comment
of `Modifiers::LeftAlt` reads "Left Shift" (a copy-paste slip), so parsing
the generated debug name "LeftAlt" yields `Modifiers::LeftAlt` (table 8,
key 2), whose display string "Left Shift" re-parses to the earlier
`Modifiers::LeftShift` (table 8, key 1) — a different key, contradicting
`parse_symbol(display(parse_symbol(n)?)) == parse_symbol(n)`. -/
theorem c5_symbol_roundtrip_failure :
    parseSymbol "LeftAlt" = some (.known ⟨8, 2, .base⟩)
    ∧ KeyKind.displayStr (.known ⟨8, 2, .base⟩) = "Left Shift"
    ∧ parseSymbol "Left Shift" = some (.known ⟨8, 1, .base⟩)
    ∧ parseSymbol (KeyKind.displayStr (.known ⟨8, 2, .base⟩))
        ≠ parseSymbol "LeftAlt" := by
  have h1 : parseSymbol "LeftAlt" = some (.known ⟨8, 2, .base⟩) := by rfl
  have h2 : KeyKind.displayStr (.known ⟨8, 2, .base⟩) = "Left Shift" := by rfl
  have h3 : parseSymbol "Left Shift" = some (.known ⟨8, 1, .base⟩) := by rfl
  refine ⟨h1, h2, h3, ?_⟩
  rw [h2, h3, h1]
  decide

/-! ## Response framer -/

theorem tillLineEnding_render (l rest : List Char) (hl : lineOk l) :
    tillLineEnding (l ++ '\r' :: '\n' :: rest) = .ok l ('\r' :: '\n' :: rest) := by
  induction l with
  | nil => rfl
  | cons c cs ih =>
    obtain ⟨hr, hn⟩ := hl
    have hcr : c ≠ '\r' := fun h => hr (h ▸ List.mem_cons_self c cs)
    have hcn : c ≠ '\n' := fun h => hn (h ▸ List.mem_cons_self c cs)
    have hl' : lineOk cs :=
      ⟨fun h => hr (List.mem_cons_of_mem _ h), fun h => hn (List.mem_cons_of_mem _ h)⟩
    simp only [List.cons_append, tillLineEnding]
    rw [if_neg hcn, if_neg hcr, List.append_eq, ih hl']

theorem lineParser_render (l rest : List Char) (hl : lineOk l) :
    lineParser (l ++ '\r' :: '\n' :: rest) = .ok l rest := by
  unfold lineParser
  rw [tillLineEnding_render l rest hl]
  rfl

theorem renderLines_cons (l : List Char) (ls : List (List Char)) :
    renderLines (l :: ls) = l ++ '\r' :: '\n' :: renderLines ls := by
  simp [renderLines]

theorem respLoop_incomplete :
    ∀ ls : List (List Char), (∀ l ∈ ls, lineOk l ∧ l.head? ≠ some '.') →
    ∀ (acc : List Char) (fuel : Nat), (renderLines ls).length < fuel →
      respLoop acc (renderLines ls) fuel = .incomplete := by
  intro ls
  induction ls with
  | nil =>
    intro _ acc fuel hf
    cases fuel with
    | zero => omega
    | succ f => rfl
  | cons l ls ih =>
    intro hg acc fuel hf
    obtain ⟨hlok, hld⟩ := hg l (List.mem_cons_self l ls)
    have hgs : ∀ x ∈ ls, lineOk x ∧ x.head? ≠ some '.' :=
      fun x hx => hg x (List.mem_cons_of_mem _ hx)
    rw [renderLines_cons] at hf ⊢
    have hlp : lineParser (l ++ '\r' :: '\n' :: renderLines ls)
        = .ok l (renderLines ls) := lineParser_render l _ hlok
    cases l with
    | nil =>
      cases fuel with
      | zero => omega
      | succ f =>
        show respLoop acc ('\r' :: '\n' :: renderLines ls) (f + 1) = .incomplete
        simp only [respLoop]
        rw [if_neg (by decide : ¬ ('\r' = '.'))]
        rw [show lineParser ('\r' :: '\n' :: renderLines ls) = .ok [] (renderLines ls)
              from hlp]
        refine ih hgs _ f ?_
        simp at hf
        omega
    | cons c cs =>
      cases fuel with
      | zero => omega
      | succ f =>
        have hcd : c ≠ '.' := fun h => hld (by rw [h]; rfl)
        show respLoop acc (c :: (cs ++ '\r' :: '\n' :: renderLines ls)) (f + 1)
            = .incomplete
        simp only [respLoop]
        rw [if_neg hcd]
        rw [show lineParser (c :: (cs ++ '\r' :: '\n' :: renderLines ls))
              = .ok (c :: cs) (renderLines ls) from hlp]
        refine ih hgs _ f ?_
        rw [List.length_append] at hf
        simp at hf
        omega

theorem respLoop_done :
    ∀ ls : List (List Char), (∀ l ∈ ls, lineOk l ∧ l.head? ≠ some '.') →
    ∀ (acc tail : List Char) (fuel : Nat), (renderLines ls).length < fuel →
      respLoop acc (renderLines ls ++ '.' :: tail) fuel
        = .ok (ls.foldl accAdd acc) tail := by
  intro ls
  induction ls with
  | nil =>
    intro _ acc tail fuel hf
    cases fuel with
    | zero => omega
    | succ f => rfl
  | cons l ls ih =>
    intro hg acc tail fuel hf
    obtain ⟨hlok, hld⟩ := hg l (List.mem_cons_self l ls)
    have hgs : ∀ x ∈ ls, lineOk x ∧ x.head? ≠ some '.' :=
      fun x hx => hg x (List.mem_cons_of_mem _ hx)
    rw [renderLines_cons] at hf ⊢
    have hshape : (l ++ '\r' :: '\n' :: renderLines ls) ++ '.' :: tail
        = l ++ '\r' :: '\n' :: (renderLines ls ++ '.' :: tail) := by
      simp [List.append_assoc]
    rw [hshape]
    have hlp : lineParser (l ++ '\r' :: '\n' :: (renderLines ls ++ '.' :: tail))
        = .ok l (renderLines ls ++ '.' :: tail) := lineParser_render l _ hlok
    cases l with
    | nil =>
      cases fuel with
      | zero => omega
      | succ f =>
        show respLoop acc ('\r' :: '\n' :: (renderLines ls ++ '.' :: tail)) (f + 1)
            = .ok (ls.foldl accAdd (accAdd acc [])) tail
        simp only [respLoop]
        rw [if_neg (by decide : ¬ ('\r' = '.'))]
        rw [show lineParser ('\r' :: '\n' :: (renderLines ls ++ '.' :: tail))
              = .ok [] (renderLines ls ++ '.' :: tail) from hlp]
        refine ih hgs _ tail f ?_
        simp at hf
        omega
    | cons c cs =>
      cases fuel with
      | zero => omega
      | succ f =>
        have hcd : c ≠ '.' := fun h => hld (by rw [h]; rfl)
        show respLoop acc (c :: (cs ++ '\r' :: '\n' :: (renderLines ls ++ '.' :: tail))) (f + 1)
            = .ok (ls.foldl accAdd (accAdd acc (c :: cs))) tail
        simp only [respLoop]
        rw [if_neg hcd]
        rw [show lineParser (c :: (cs ++ '\r' :: '\n' :: (renderLines ls ++ '.' :: tail)))
              = .ok (c :: cs) (renderLines ls ++ '.' :: tail) from hlp]
        refine ih hgs _ tail f ?_
        rw [List.length_append] at hf
        simp at hf
        omega

theorem foldl_accAdd :
    ∀ (ls : List (List Char)) (acc : List Char), acc ≠ [] →
      ls.foldl accAdd acc = acc ++ (ls.map (fun l => '\n' :: l)).flatten := by
  intro ls
  induction ls with
  | nil => intro acc _; simp
  | cons l ls ih =>
    intro acc hacc
    have h1 : accAdd acc l = acc ++ '\n' :: l := by
      unfold accAdd
      rw [if_neg hacc]
    rw [List.foldl_cons, h1, ih _ (by simp)]
    simp

/-- C4 as stated is false at concrete inputs: the input "a\r\n.b\r\n"
consists of two CRLF-terminated lines, neither of which is the terminator
line ".", yet parsing succeeds with "a" (the '.' that begins the second
line is taken as the terminator) instead of signalling Incomplete; and for
"\r\na\r\n" followed by the terminator the result is "a", not the lines
joined by '\n' (the empty first line is collapsed by the accumulator). -/
theorem c4_counterexample :
    lineOk ['a'] ∧ lineOk ['.', 'b']
    ∧ ['a'] ≠ ['.'] ∧ ['.', 'b'] ≠ ['.']
    ∧ parseResponse (renderLines [['a'], ['.', 'b']]) = .ok ['a']
    ∧ parseResponse (renderLines [[], ['a']] ++ ['.']) = .ok ['a'] :=
  ⟨by decide, by decide, by decide, by decide, by decide, by decide⟩

/-- C4 (amended): for every input of one or more CRLF-terminated lines where
the first line is non-empty and no line after the first begins with '.',
parsing the Focus API response yields the distinct Incomplete result rather
than a parse error; with a terminator line "." appended, parsing succeeds
and returns the lines joined by '\n', the terminator consumed and excluded
from the result. -/
theorem c4_response_framer :
    ∀ (l0 : List Char) (ls : List (List Char)),
      l0 ≠ [] → lineOk l0 →
      (∀ l ∈ ls, lineOk l ∧ l.head? ≠ some '.') →
      parseResponse (renderLines (l0 :: ls)) = .error .incomplete
      ∧ parseResponse (renderLines (l0 :: ls) ++ '.' :: '\r' :: '\n' :: [])
          = .ok (l0 ++ (ls.map (fun l => '\n' :: l)).flatten) := by
  intro l0 ls h0 hok hg
  constructor
  · unfold parseResponse responseParser
    rw [renderLines_cons, lineParser_render l0 _ hok]
    have hloop := respLoop_incomplete ls hg l0
      ((l0 ++ '\r' :: '\n' :: renderLines ls).length + 1)
      (by simp [List.length_append]; omega)
    simp only [hloop]
  · unfold parseResponse responseParser
    have hshape : renderLines (l0 :: ls) ++ '.' :: '\r' :: '\n' :: []
        = l0 ++ '\r' :: '\n' :: (renderLines ls ++ '.' :: '\r' :: '\n' :: []) := by
      rw [renderLines_cons]
      simp [List.append_assoc]
    rw [hshape, lineParser_render l0 _ hok]
    have hloop := respLoop_done ls hg l0 ('\r' :: '\n' :: [])
      ((l0 ++ '\r' :: '\n' :: (renderLines ls ++ '.' :: '\r' :: '\n' :: [])).length + 1)
      (by simp [List.length_append]; omega)
    simp only [hloop]
    rw [foldl_accAdd ls l0 h0]

theorem c4_response_framer_witness :
    parseResponse (renderLines [['a'], ['b']]) = .error .incomplete
    ∧ parseResponse (renderLines [['a'], ['b']] ++ '.' :: '\r' :: '\n' :: [])
        = .ok (['a'] ++ ([['b']].map (fun l => '\n' :: l)).flatten) :=
  c4_response_framer ['a'] [['b']] (by decide) (by decide) (by decide)

/-! ## C7: macro stray-byte recovery -/

/-! reduction helpers -/

theorem macroActsLoop_zero (ts : List Nat) : macroActsLoop ts 0 = none := by
  cases ts with
  | nil => rfl
  | cons t l => cases t <;> rfl

theorem macroActsLoop_nil (f : Nat) : macroActsLoop [] (f + 1) = none := rfl

theorem macroActsLoop_term (l : List Nat) (f : Nat) :
    macroActsLoop (0 :: l) (f + 1) = some ([], l) := rfl

theorem macroActsLoop_cons (k : Nat) (l : List Nat) (f : Nat) :
    macroActsLoop ((k + 1) :: l) (f + 1) =
      (actionTok ((k + 1) :: l)).bind fun (a, rest) =>
        (macroActsLoop rest f).map fun p => (a :: p.1, p.2) := rfl

theorem macroListLoop_zero (ts : List Nat) : macroListLoop ts 0 = none := by
  cases ts with
  | nil => rfl
  | cons t l => cases t <;> rfl

theorem macroListLoop_nil (f : Nat) : macroListLoop [] (f + 1) = none := by
  show (macroTok [] f).bind _ = none
  rfl

theorem macroListLoop_term (l : List Nat) (f : Nat) :
    macroListLoop (0 :: l) (f + 1) = some ([], l) := rfl

theorem macroListLoop_cons (k : Nat) (l : List Nat) (f : Nat) :
    macroListLoop ((k + 1) :: l) (f + 1) =
      (macroTok ((k + 1) :: l) f).bind fun (m, rest) =>
        (macroListLoop rest f).map fun p => (m :: p.1, p.2) := rfl

theorem extrasLoop_zero (ts : List Nat) : extrasLoop ts 0 = ([], ts) := rfl

theorem extrasLoop_succ (ts : List Nat) (f : Nat) :
    extrasLoop ts (f + 1) =
      match macroListLoop ts f with
      | some (ms, rest) => (ms :: (extrasLoop rest f).1, (extrasLoop rest f).2)
      | none => ([], ts) := rfl

theorem actsLoopStarts_zero (ts : List Nat) : actsLoopStarts ts 0 = [] := by
  cases ts with
  | nil => rfl
  | cons t l => cases t <;> rfl

theorem actsLoopStarts_term (l : List Nat) (f : Nat) :
    actsLoopStarts (0 :: l) (f + 1) = [] := rfl

theorem actsLoopStarts_nil (f : Nat) : actsLoopStarts [] (f + 1) = [[]] := rfl

theorem actsLoopStarts_cons (k : Nat) (l : List Nat) (f : Nat) :
    actsLoopStarts ((k + 1) :: l) (f + 1) =
      ((k + 1) :: l) :: (match actionTok ((k + 1) :: l) with
        | some (_, rest) => actsLoopStarts rest f
        | none => []) := rfl

theorem macroListLoopStarts_zero (ts : List Nat) : macroListLoopStarts ts 0 = [] := by
  cases ts with
  | nil => rfl
  | cons t l => cases t <;> rfl

theorem macroListLoopStarts_term (l : List Nat) (f : Nat) :
    macroListLoopStarts (0 :: l) (f + 1) = [] := rfl

theorem macroListLoopStarts_nil (f : Nat) :
    macroListLoopStarts [] (f + 1) =
      macroTokStarts [] f ++ (match macroTok [] f with
        | some (_, rest) => macroListLoopStarts rest f
        | none => []) := rfl

theorem macroListLoopStarts_cons (k : Nat) (l : List Nat) (f : Nat) :
    macroListLoopStarts ((k + 1) :: l) (f + 1) =
      macroTokStarts ((k + 1) :: l) f ++ (match macroTok ((k + 1) :: l) f with
        | some (_, rest) => macroListLoopStarts rest f
        | none => []) := rfl

theorem extrasStarts_zero (ts : List Nat) : extrasStarts ts 0 = [] := rfl

theorem extrasStarts_succ (ts : List Nat) (f : Nat) :
    extrasStarts ts (f + 1) =
      match macroListLoop ts f with
      | some (_, rest) => macroListLoopStarts ts f ++ extrasStarts rest f
      | none => [] := rfl

/-! token-level lemmas -/

theorem u8Tok_cons {v : Nat} (hv : v ≤ 255) (x : List Nat) :
    u8Tok (v :: x) = some (v, x) := by
  simp only [u8Tok]
  rw [if_pos hv]

theorem u8Tok_det {ts r : List Nat} {v : Nat} (h : u8Tok ts = some (v, r)) :
    v ≤ 255 ∧ ts = v :: r := by
  cases ts with
  | nil => simp [u8Tok] at h
  | cons t ts0 =>
    simp only [u8Tok] at h
    by_cases hle : t ≤ 255
    · rw [if_pos hle] at h
      simp only [Option.some.injEq, Prod.mk.injEq] at h
      obtain ⟨rfl, rfl⟩ := h
      exact ⟨hle, rfl⟩
    · rw [if_neg hle] at h
      simp at h

theorem u16Tok_cons {b0 b1 : Nat} (h0 : b0 ≤ 255) (h1 : b1 ≤ 255) (x : List Nat) :
    u16Tok (b0 :: b1 :: x) = some (u16FromNeBytes b0 b1, x) := by
  unfold u16Tok
  rw [u8Tok_cons h0]
  simp only [Option.some_bind]
  rw [u8Tok_cons h1]
  rfl

theorem u16Tok_det {ts r : List Nat} {v : Nat} (h : u16Tok ts = some (v, r)) :
    ∃ b0 b1, b0 ≤ 255 ∧ b1 ≤ 255 ∧ ts = b0 :: b1 :: r ∧ v = u16FromNeBytes b0 b1 := by
  unfold u16Tok at h
  cases hu : u8Tok ts with
  | none => rw [hu] at h; simp at h
  | some p =>
    obtain ⟨b0, ts1⟩ := p
    rw [hu] at h
    simp only [Option.some_bind] at h
    cases hu1 : u8Tok ts1 with
    | none => rw [hu1] at h; simp at h
    | some q =>
      obtain ⟨b1, ts2⟩ := q
      rw [hu1] at h
      simp only [Option.some_bind, Option.some.injEq, Prod.mk.injEq] at h
      obtain ⟨rfl, rfl⟩ := h
      obtain ⟨hb0, rfl⟩ := u8Tok_det hu
      obtain ⟨hb1, rfl⟩ := u8Tok_det hu1
      exact ⟨b0, b1, hb0, hb1, rfl, rfl⟩

/-! determinism of the action parser: a successful parse depends only on
the consumed prefix, which can be replayed before any continuation -/

theorem actionDispatch_det {k : Nat} {ts r : List Nat} {a : MacroAction}
    (h : actionDispatch k ts = some (a, r)) :
    ∃ d, d ≠ [] ∧ ts = d ++ r ∧ ∀ x, actionDispatch k (d ++ x) = some (a, x) := by
  unfold actionDispatch at h
  by_cases h1 : k = 1
  · rw [if_pos h1] at h
    cases hu : u16Tok ts with
    | none => rw [hu] at h; simp at h
    | some p =>
      obtain ⟨d1, t1⟩ := p
      rw [hu] at h
      simp only [Option.some_bind] at h
      cases hu2 : u16Tok t1 with
      | none => rw [hu2] at h; simp at h
      | some q =>
        obtain ⟨d2, t2⟩ := q
        rw [hu2] at h
        simp only [Option.some_bind, Option.some.injEq, Prod.mk.injEq] at h
        obtain ⟨ha, rfl⟩ := h
        obtain ⟨b0, b1, hb0, hb1, rfl, rfl⟩ := u16Tok_det hu
        obtain ⟨b2, b3, hb2, hb3, rfl, rfl⟩ := u16Tok_det hu2
        refine ⟨[b0, b1, b2, b3], by simp, rfl, fun x => ?_⟩
        unfold actionDispatch
        rw [if_pos h1]
        simp only [List.cons_append, List.nil_append]
        rw [u16Tok_cons hb0 hb1]
        simp only [Option.some_bind]
        rw [u16Tok_cons hb2 hb3]
        simp only [Option.some_bind]
        rw [← ha]
  · rw [if_neg h1] at h
    by_cases h2 : 2 ≤ k ∧ k ≤ 5
    · rw [if_pos h2] at h
      cases hu : u16Tok ts with
      | none => rw [hu] at h; simp at h
      | some p =>
        obtain ⟨d1, t1⟩ := p
        rw [hu] at h
        simp only [Option.some_bind, Option.some.injEq, Prod.mk.injEq] at h
        obtain ⟨ha, rfl⟩ := h
        obtain ⟨b0, b1, hb0, hb1, rfl, rfl⟩ := u16Tok_det hu
        refine ⟨[b0, b1], by simp, rfl, fun x => ?_⟩
        unfold actionDispatch
        rw [if_neg h1, if_pos h2]
        simp only [List.cons_append, List.nil_append]
        rw [u16Tok_cons hb0 hb1]
        simp only [Option.some_bind]
        rw [← ha]
    · rw [if_neg h2] at h
      by_cases h6 : k = 6
      · rw [if_pos h6] at h
        cases hu : u8Tok ts with
        | none => rw [hu] at h; simp at h
        | some p =>
          obtain ⟨b0, t1⟩ := p
          rw [hu] at h
          simp only [Option.some_bind, Option.some.injEq, Prod.mk.injEq] at h
          obtain ⟨ha, rfl⟩ := h
          obtain ⟨hb0, rfl⟩ := u8Tok_det hu
          refine ⟨[b0], by simp, rfl, fun x => ?_⟩
          unfold actionDispatch
          rw [if_neg h1, if_neg h2, if_pos h6]
          simp only [List.cons_append, List.nil_append]
          rw [u8Tok_cons hb0]
          simp only [Option.some_bind]
          rw [← ha]
      · rw [if_neg h6] at h
        by_cases h7 : k = 7
        · rw [if_pos h7] at h
          cases hu : u8Tok ts with
          | none => rw [hu] at h; simp at h
          | some p =>
            obtain ⟨b0, t1⟩ := p
            rw [hu] at h
            simp only [Option.some_bind, Option.some.injEq, Prod.mk.injEq] at h
            obtain ⟨ha, rfl⟩ := h
            obtain ⟨hb0, rfl⟩ := u8Tok_det hu
            refine ⟨[b0], by simp, rfl, fun x => ?_⟩
            unfold actionDispatch
            rw [if_neg h1, if_neg h2, if_neg h6, if_pos h7]
            simp only [List.cons_append, List.nil_append]
            rw [u8Tok_cons hb0]
            simp only [Option.some_bind]
            rw [← ha]
        · rw [if_neg h7] at h
          by_cases h8 : k = 8
          · rw [if_pos h8] at h
            cases hu : u8Tok ts with
            | none => rw [hu] at h; simp at h
            | some p =>
              obtain ⟨b0, t1⟩ := p
              rw [hu] at h
              simp only [Option.some_bind, Option.some.injEq, Prod.mk.injEq] at h
              obtain ⟨ha, rfl⟩ := h
              obtain ⟨hb0, rfl⟩ := u8Tok_det hu
              refine ⟨[b0], by simp, rfl, fun x => ?_⟩
              unfold actionDispatch
              rw [if_neg h1, if_neg h2, if_neg h6, if_neg h7, if_pos h8]
              simp only [List.cons_append, List.nil_append]
              rw [u8Tok_cons hb0]
              simp only [Option.some_bind]
              rw [← ha]
          · rw [if_neg h8] at h
            simp at h

theorem actionTok_det {ts r : List Nat} {a : MacroAction}
    (h : actionTok ts = some (a, r)) :
    ∃ c, 2 ≤ c.length ∧ ts = c ++ r ∧ ∀ x, actionTok (c ++ x) = some (a, x) := by
  unfold actionTok at h
  cases hu : u8Tok ts with
  | none => rw [hu] at h; simp at h
  | some p =>
    obtain ⟨k0, ts1⟩ := p
    rw [hu] at h
    simp only [Option.some_bind] at h
    obtain ⟨hk0le, rfl⟩ := u8Tok_det hu
    by_cases hv : validKind k0
    · rw [if_pos hv] at h
      obtain ⟨d, hdne, rfl, hdx⟩ := actionDispatch_det h
      refine ⟨k0 :: d, ?_, rfl, fun x => ?_⟩
      · cases d with
        | nil => exact absurd rfl hdne
        | cons _ _ => simp
      · simp only [List.cons_append]
        unfold actionTok
        rw [u8Tok_cons hk0le]
        simp only [Option.some_bind]
        rw [if_pos hv]
        exact hdx x
    · rw [if_neg hv] at h
      cases hu1 : u8Tok ts1 with
      | none => rw [hu1] at h; simp at h
      | some q =>
        obtain ⟨k1, ts2⟩ := q
        rw [hu1] at h
        simp only [Option.some_bind] at h
        obtain ⟨hk1le, rfl⟩ := u8Tok_det hu1
        obtain ⟨d, hdne, rfl, hdx⟩ := actionDispatch_det h
        refine ⟨k0 :: k1 :: d, by simp, rfl, fun x => ?_⟩
        simp only [List.cons_append]
        unfold actionTok
        rw [u8Tok_cons hk0le]
        simp only [Option.some_bind]
        rw [if_neg hv]
        rw [u8Tok_cons hk1le]
        simp only [Option.some_bind]
        exact hdx x

theorem actionTok_consume {ts r : List Nat} {a : MacroAction}
    (h : actionTok ts = some (a, r)) : r.length + 2 ≤ ts.length := by
  obtain ⟨c, hc2, rfl, -⟩ := actionTok_det h
  rw [List.length_append]
  omega

/-- A byte outside the valid discriminant range sitting directly before a
valid discriminant is skipped by `action_parser`. -/
theorem actionTok_skip {b : Nat} (hb : ¬ validKind b) (hb255 : b ≤ 255)
    {t : List Nat} (hv : validHead t) :
    actionTok (b :: t) = actionTok t := by
  cases t with
  | nil => exact absurd hv (by simp [validHead])
  | cons k t0 =>
    have hk : validKind k := hv
    have hk255 : k ≤ 255 := by
      obtain ⟨hk1, hk2⟩ := hk
      omega
    unfold actionTok
    rw [u8Tok_cons hb255]
    simp only [Option.some_bind]
    rw [if_neg hb]
    rw [u8Tok_cons hk255]
    simp only [Option.some_bind]
    rw [if_pos hk]

theorem macroActsLoop_det :
    ∀ (f : Nat) (ts : List Nat) (acts : MacroActs) (rest : List Nat),
      macroActsLoop ts f = some (acts, rest) →
      ∃ c, c ≠ [] ∧ ts = c ++ rest ∧
        ∀ g, f ≤ g → ∀ x, macroActsLoop (c ++ x) g = some (acts, x) := by
  intro f
  induction f with
  | zero =>
    intro ts acts rest h
    rw [macroActsLoop_zero] at h
    exact absurd h (by simp)
  | succ f ih =>
    intro ts acts rest h
    match ts with
    | [] =>
      rw [macroActsLoop_nil] at h
      exact absurd h (by simp)
    | 0 :: l =>
      rw [macroActsLoop_term] at h
      simp only [Option.some.injEq, Prod.mk.injEq] at h
      obtain ⟨rfl, rfl⟩ := h
      refine ⟨[0], by simp, rfl, fun g hg x => ?_⟩
      obtain ⟨g1, rfl⟩ : ∃ g1, g = g1 + 1 := ⟨g - 1, by omega⟩
      exact macroActsLoop_term x g1
    | (k + 1) :: l =>
      rw [macroActsLoop_cons] at h
      cases ha : actionTok ((k + 1) :: l) with
      | none => rw [ha] at h; exact absurd h (by simp)
      | some p =>
        obtain ⟨a, r0⟩ := p
        rw [ha] at h
        simp only [Option.some_bind] at h
        cases hl : macroActsLoop r0 f with
        | none => rw [hl] at h; exact absurd h (by simp)
        | some q =>
          obtain ⟨acts1, rest1⟩ := q
          rw [hl] at h
          simp only [Option.map_some', Option.some.injEq, Prod.mk.injEq] at h
          obtain ⟨rfl, rfl⟩ := h
          obtain ⟨c1, hc1len, hc1, hc1x⟩ := actionTok_det ha
          obtain ⟨c2, hc2ne, rfl, hc2x⟩ := ih _ _ _ hl
          refine ⟨c1 ++ c2, ?_, by rw [hc1, List.append_assoc], fun g hg x => ?_⟩
          · intro hcon
            rw [List.append_eq_nil] at hcon
            exact hc2ne hcon.2
          · obtain ⟨g1, rfl⟩ : ∃ g1, g = g1 + 1 := ⟨g - 1, by omega⟩
            cases c1 with
            | nil => simp at hc1len
            | cons c0 c1t =>
              have hc0 : c0 = k + 1 := by
                simp only [List.cons_append, List.cons.injEq] at hc1
                exact hc1.1.symm
              subst hc0
              simp only [List.cons_append, List.append_assoc]
              rw [macroActsLoop_cons]
              rw [show (k + 1) :: (c1t ++ (c2 ++ x))
                    = ((k + 1) :: c1t) ++ (c2 ++ x) from rfl]
              rw [hc1x (c2 ++ x)]
              simp only [Option.some_bind]
              rw [hc2x g1 (by omega) x]
              rfl

theorem macroActsLoop_consume {ts rest : List Nat} {acts : MacroActs} {f : Nat}
    (h : macroActsLoop ts f = some (acts, rest)) : rest.length + 1 ≤ ts.length := by
  obtain ⟨c, hcne, rfl, -⟩ := macroActsLoop_det _ _ _ _ h
  rw [List.length_append]
  cases c with
  | nil => exact absurd rfl hcne
  | cons _ _ => simp; omega

theorem macroTok_det {ts r : List Nat} {f : Nat} {m : MacroActs}
    (h : macroTok ts f = some (m, r)) :
    ∃ c, c ≠ [] ∧ ts = c ++ r ∧
      ∀ g, f ≤ g → ∀ x, macroTok (c ++ x) g = some (m, x) := by
  unfold macroTok at h
  cases ha : actionTok ts with
  | none => rw [ha] at h; simp at h
  | some p =>
    obtain ⟨a, r0⟩ := p
    rw [ha] at h
    simp only [Option.some_bind] at h
    cases hl : macroActsLoop r0 f with
    | none => rw [hl] at h; simp at h
    | some q =>
      obtain ⟨acts1, rest1⟩ := q
      rw [hl] at h
      simp only [Option.map_some', Option.some.injEq, Prod.mk.injEq] at h
      obtain ⟨rfl, rfl⟩ := h
      obtain ⟨c1, hc1len, rfl, hc1x⟩ := actionTok_det ha
      obtain ⟨c2, hc2ne, rfl, hc2x⟩ := macroActsLoop_det _ _ _ _ hl
      refine ⟨c1 ++ c2, ?_, by rw [List.append_assoc], fun g hg x => ?_⟩
      · intro hcon
        rw [List.append_eq_nil] at hcon
        exact hc2ne hcon.2
      · unfold macroTok
        rw [List.append_assoc]
        rw [hc1x (c2 ++ x)]
        simp only [Option.some_bind]
        rw [hc2x g hg x]
        rfl

theorem macroTok_consume {ts rest : List Nat} {m : MacroActs} {f : Nat}
    (h : macroTok ts f = some (m, rest)) : rest.length + 1 ≤ ts.length := by
  obtain ⟨c, hcne, rfl, -⟩ := macroTok_det h
  rw [List.length_append]
  cases c with
  | nil => exact absurd rfl hcne
  | cons _ _ => simp; omega

theorem macroListLoop_det :
    ∀ (f : Nat) (ts : List Nat) (ms : List MacroActs) (rest : List Nat),
      macroListLoop ts f = some (ms, rest) →
      ∃ c, c ≠ [] ∧ ts = c ++ rest ∧
        ∀ g, f ≤ g → ∀ x, macroListLoop (c ++ x) g = some (ms, x) := by
  intro f
  induction f with
  | zero =>
    intro ts ms rest h
    rw [macroListLoop_zero] at h
    exact absurd h (by simp)
  | succ f ih =>
    intro ts ms rest h
    match ts with
    | [] =>
      rw [macroListLoop_nil] at h
      exact absurd h (by simp)
    | 0 :: l =>
      rw [macroListLoop_term] at h
      simp only [Option.some.injEq, Prod.mk.injEq] at h
      obtain ⟨rfl, rfl⟩ := h
      refine ⟨[0], by simp, rfl, fun g hg x => ?_⟩
      obtain ⟨g1, rfl⟩ : ∃ g1, g = g1 + 1 := ⟨g - 1, by omega⟩
      exact macroListLoop_term x g1
    | (k + 1) :: l =>
      rw [macroListLoop_cons] at h
      cases hm : macroTok ((k + 1) :: l) f with
      | none => rw [hm] at h; exact absurd h (by simp)
      | some p =>
        obtain ⟨m, r0⟩ := p
        rw [hm] at h
        simp only [Option.some_bind] at h
        cases hl : macroListLoop r0 f with
        | none => rw [hl] at h; exact absurd h (by simp)
        | some q =>
          obtain ⟨ms1, rest1⟩ := q
          rw [hl] at h
          simp only [Option.map_some', Option.some.injEq, Prod.mk.injEq] at h
          obtain ⟨rfl, rfl⟩ := h
          obtain ⟨c1, hc1ne, hc1, hc1x⟩ := macroTok_det hm
          obtain ⟨c2, hc2ne, rfl, hc2x⟩ := ih _ _ _ hl
          refine ⟨c1 ++ c2, ?_, by rw [hc1, List.append_assoc], fun g hg x => ?_⟩
          · intro hcon
            rw [List.append_eq_nil] at hcon
            exact hc2ne hcon.2
          · obtain ⟨g1, rfl⟩ : ∃ g1, g = g1 + 1 := ⟨g - 1, by omega⟩
            cases c1 with
            | nil => exact absurd rfl hc1ne
            | cons c0 c1t =>
              have hc0 : c0 = k + 1 := by
                simp only [List.cons_append, List.cons.injEq] at hc1
                exact hc1.1.symm
              subst hc0
              simp only [List.cons_append, List.append_assoc]
              rw [macroListLoop_cons]
              rw [show (k + 1) :: (c1t ++ (c2 ++ x))
                    = ((k + 1) :: c1t) ++ (c2 ++ x) from rfl]
              rw [hc1x g1 (by omega) (c2 ++ x)]
              simp only [Option.some_bind]
              rw [hc2x g1 (by omega) x]
              rfl

theorem macroListLoop_consume {ts rest : List Nat} {ms : List MacroActs} {f : Nat}
    (h : macroListLoop ts f = some (ms, rest)) : rest.length + 1 ≤ ts.length := by
  obtain ⟨c, hcne, rfl, -⟩ := macroListLoop_det _ _ _ _ h
  rw [List.length_append]
  cases c with
  | nil => exact absurd rfl hcne
  | cons _ _ => simp; omega

/-! fuel sufficiency: any fuel at least the input length behaves alike -/

theorem macroActsLoop_suffic :
    ∀ (f g : Nat) (ts : List Nat) (acts : MacroActs) (rest : List Nat),
      macroActsLoop ts g = some (acts, rest) → ts.length ≤ f →
      macroActsLoop ts f = some (acts, rest) := by
  intro f
  induction f with
  | zero =>
    intro g ts acts rest h hlen
    have hnil : ts = [] := List.eq_nil_of_length_eq_zero (by omega)
    subst hnil
    cases g with
    | zero => rw [macroActsLoop_zero] at h; exact absurd h (by simp)
    | succ g => rw [macroActsLoop_nil] at h; exact absurd h (by simp)
  | succ f ih =>
    intro g ts acts rest h hlen
    cases g with
    | zero => rw [macroActsLoop_zero] at h; exact absurd h (by simp)
    | succ g =>
      match ts with
      | [] => rw [macroActsLoop_nil] at h; exact absurd h (by simp)
      | 0 :: l => rw [macroActsLoop_term] at h; rw [macroActsLoop_term]; exact h
      | (k + 1) :: l =>
        rw [macroActsLoop_cons] at h
        rw [macroActsLoop_cons]
        cases ha : actionTok ((k + 1) :: l) with
        | none => rw [ha] at h; exact absurd h (by simp)
        | some p =>
          obtain ⟨a, r0⟩ := p
          rw [ha] at h
          simp only [Option.some_bind] at h ⊢
          cases hl : macroActsLoop r0 g with
          | none => rw [hl] at h; exact absurd h (by simp)
          | some q =>
            have hcons := actionTok_consume ha
            have : macroActsLoop r0 f = some q := by
              refine ih g r0 q.1 q.2 ?_ ?_
              · rw [hl]
              · simp only [List.length_cons] at hlen hcons
                omega
            rw [hl] at h
            rw [this]
            exact h

theorem macroTok_suffic {f g : Nat} {ts : List Nat} {m : MacroActs} {rest : List Nat}
    (h : macroTok ts g = some (m, rest)) (hlen : ts.length ≤ f + 2) :
    macroTok ts f = some (m, rest) := by
  unfold macroTok at h ⊢
  cases ha : actionTok ts with
  | none => rw [ha] at h; exact absurd h (by simp)
  | some p =>
    obtain ⟨a, r0⟩ := p
    rw [ha] at h
    simp only [Option.some_bind] at h ⊢
    cases hl : macroActsLoop r0 g with
    | none => rw [hl] at h; exact absurd h (by simp)
    | some q =>
      have hcons := actionTok_consume ha
      have : macroActsLoop r0 f = some q := by
        refine macroActsLoop_suffic f g r0 q.1 q.2 ?_ ?_
        · rw [hl]
        · omega
      rw [hl] at h
      rw [this]
      exact h

theorem macroListLoop_suffic :
    ∀ (f g : Nat) (ts : List Nat) (ms : List MacroActs) (rest : List Nat),
      macroListLoop ts g = some (ms, rest) → ts.length ≤ f →
      macroListLoop ts f = some (ms, rest) := by
  intro f
  induction f with
  | zero =>
    intro g ts ms rest h hlen
    have hnil : ts = [] := List.eq_nil_of_length_eq_zero (by omega)
    subst hnil
    cases g with
    | zero => rw [macroListLoop_zero] at h; exact absurd h (by simp)
    | succ g => rw [macroListLoop_nil] at h; exact absurd h (by simp)
  | succ f ih =>
    intro g ts ms rest h hlen
    cases g with
    | zero => rw [macroListLoop_zero] at h; exact absurd h (by simp)
    | succ g =>
      match ts with
      | [] => rw [macroListLoop_nil] at h; exact absurd h (by simp)
      | 0 :: l => rw [macroListLoop_term] at h; rw [macroListLoop_term]; exact h
      | (k + 1) :: l =>
        rw [macroListLoop_cons] at h
        rw [macroListLoop_cons]
        cases hm : macroTok ((k + 1) :: l) g with
        | none => rw [hm] at h; exact absurd h (by simp)
        | some p =>
          obtain ⟨m1, r0⟩ := p
          have hm2 : macroTok ((k + 1) :: l) f = some (m1, r0) := by
            refine macroTok_suffic hm ?_
            simp only [List.length_cons] at hlen ⊢
            omega
          rw [hm] at h
          rw [hm2]
          simp only [Option.some_bind] at h ⊢
          cases hl : macroListLoop r0 g with
          | none => rw [hl] at h; exact absurd h (by simp)
          | some q =>
            have hcons := macroTok_consume hm
            have : macroListLoop r0 f = some q := by
              refine ih g r0 q.1 q.2 ?_ ?_
              · rw [hl]
              · simp only [List.length_cons] at hlen hcons
                omega
            rw [hl] at h
            rw [this]
            exact h

theorem extrasLoop_fuel :
    ∀ (f g : Nat) (ts : List Nat), ts.length < f → ts.length < g →
      extrasLoop ts f = extrasLoop ts g := by
  intro f
  induction f with
  | zero => intro g ts hf; omega
  | succ f ih =>
    intro g ts hf hg
    obtain ⟨g1, rfl⟩ : ∃ g1, g = g1 + 1 := ⟨g - 1, by omega⟩
    cases hml : macroListLoop ts f with
    | none =>
      cases hml2 : macroListLoop ts g1 with
      | none =>
        have hL : extrasLoop ts (f + 1) = ([], ts) := by rw [extrasLoop_succ, hml]
        have hR : extrasLoop ts (g1 + 1) = ([], ts) := by rw [extrasLoop_succ, hml2]
        rw [hL, hR]
      | some p =>
        have := macroListLoop_suffic f g1 ts p.1 p.2 (by rw [hml2]) (by omega)
        rw [hml] at this
        exact absurd this (by simp)
    | some p =>
      obtain ⟨ms, rest⟩ := p
      have hml2 : macroListLoop ts g1 = some (ms, rest) :=
        macroListLoop_suffic g1 f ts ms rest hml (by omega)
      have hcons := macroListLoop_consume hml
      have hL : extrasLoop ts (f + 1)
          = (ms :: (extrasLoop rest f).1, (extrasLoop rest f).2) := by
        rw [extrasLoop_succ, hml]
      have hR : extrasLoop ts (g1 + 1)
          = (ms :: (extrasLoop rest g1).1, (extrasLoop rest g1).2) := by
        rw [extrasLoop_succ, hml2]
      rw [hL, hR, ih g1 rest (by omega) (by omega)]

/-! every recorded action-start position is a suffix, so no longer than
the input -/

theorem actsLoopStarts_length :
    ∀ (f : Nat) (ts t : List Nat), t ∈ actsLoopStarts ts f → t.length ≤ ts.length := by
  intro f
  induction f with
  | zero =>
    intro ts t mem
    rw [actsLoopStarts_zero] at mem
    exact absurd mem (by simp)
  | succ f ih =>
    intro ts t mem
    match ts with
    | [] =>
      rw [actsLoopStarts_nil] at mem
      simp at mem
      simp [mem]
    | 0 :: l =>
      rw [actsLoopStarts_term] at mem
      exact absurd mem (by simp)
    | (k + 1) :: l =>
      rw [actsLoopStarts_cons, List.mem_cons] at mem
      rcases mem with rfl | mem
      · exact le_refl _
      · cases ha : actionTok ((k + 1) :: l) with
        | none => rw [ha] at mem; exact absurd mem (by simp)
        | some p =>
          obtain ⟨a, r0⟩ := p
          rw [ha] at mem
          have mem2 : t ∈ actsLoopStarts r0 f := mem
          have h1 := ih r0 t mem2
          have h2 := actionTok_consume ha
          omega

theorem macroTokStarts_length {f : Nat} {ts t : List Nat}
    (mem : t ∈ macroTokStarts ts f) : t.length ≤ ts.length := by
  unfold macroTokStarts at mem
  rw [List.mem_cons] at mem
  rcases mem with rfl | mem
  · exact le_refl _
  · cases ha : actionTok ts with
    | none => rw [ha] at mem; exact absurd mem (by simp)
    | some p =>
      obtain ⟨a, r0⟩ := p
      rw [ha] at mem
      have mem2 : t ∈ actsLoopStarts r0 f := mem
      have h1 := actsLoopStarts_length f r0 t mem2
      have h2 := actionTok_consume ha
      omega

theorem macroListLoopStarts_length :
    ∀ (f : Nat) (ts t : List Nat), t ∈ macroListLoopStarts ts f → t.length ≤ ts.length := by
  intro f
  induction f with
  | zero =>
    intro ts t mem
    rw [macroListLoopStarts_zero] at mem
    exact absurd mem (by simp)
  | succ f ih =>
    intro ts t mem
    match ts with
    | [] =>
      rw [macroListLoopStarts_nil] at mem
      have hmt : macroTok [] f = none := rfl
      rw [hmt] at mem
      rw [List.mem_append] at mem
      rcases mem with mem | mem
      · exact macroTokStarts_length mem
      · exact absurd mem (by simp)
    | 0 :: l =>
      rw [macroListLoopStarts_term] at mem
      exact absurd mem (by simp)
    | (k + 1) :: l =>
      rw [macroListLoopStarts_cons, List.mem_append] at mem
      rcases mem with mem | mem
      · exact macroTokStarts_length mem
      · cases hm : macroTok ((k + 1) :: l) f with
        | none => rw [hm] at mem; exact absurd mem (by simp)
        | some p =>
          obtain ⟨m, r0⟩ := p
          rw [hm] at mem
          have mem2 : t ∈ macroListLoopStarts r0 f := mem
          have h1 := ih r0 t mem2
          have h2 := macroTok_consume hm
          omega

theorem extrasStarts_length :
    ∀ (f : Nat) (ts t : List Nat), t ∈ extrasStarts ts f → t.length ≤ ts.length := by
  intro f
  induction f with
  | zero =>
    intro ts t mem
    rw [extrasStarts_zero] at mem
    exact absurd mem (by simp)
  | succ f ih =>
    intro ts t mem
    rw [extrasStarts_succ] at mem
    cases hml : macroListLoop ts f with
    | none => rw [hml] at mem; exact absurd mem (by simp)
    | some p =>
      obtain ⟨ms, rest⟩ := p
      rw [hml] at mem
      rw [List.mem_append] at mem
      rcases mem with mem | mem
      · exact macroListLoopStarts_length f ts t mem
      · have h1 := ih rest t mem
        have h2 := macroListLoop_consume hml
        omega

/-! inserting a byte before a suffix -/

theorem insertBefore_self (ts : List Nat) (b : Nat) :
    insertBefore ts ts b = b :: ts := by
  unfold insertBefore
  simp

theorem insertBefore_append {c r t : List Nat} (hlen : t.length ≤ r.length) (b : Nat) :
    insertBefore (c ++ r) t b = c ++ insertBefore r t b := by
  unfold insertBefore
  rw [List.length_append]
  rw [show c.length + r.length - t.length = c.length + (r.length - t.length) by omega]
  rw [List.take_append]
  rw [List.append_assoc]

theorem insertBefore_length {ts t : List Nat} (h : t.length ≤ ts.length) (b : Nat) :
    (insertBefore ts t b).length = ts.length + 1 := by
  unfold insertBefore
  rw [List.length_append, List.length_take]
  simp only [List.length_cons]
  omega

theorem insertBefore_head {l t : List Nat} {b k : Nat} (hb : b ≠ 0)
    (hlen : t.length ≤ ((k + 1) :: l).length) :
    ∃ m l1, insertBefore ((k + 1) :: l) t b = (m + 1) :: l1 := by
  unfold insertBefore
  by_cases heq : t.length = ((k + 1) :: l).length
  · rw [heq, Nat.sub_self]
    simp only [List.take_zero, List.nil_append]
    obtain ⟨b1, rfl⟩ : ∃ b1, b = b1 + 1 := ⟨b - 1, by omega⟩
    exact ⟨b1, t, rfl⟩
  · have hrw : ((k + 1) :: l).length - t.length = (l.length - t.length) + 1 := by
      simp only [List.length_cons] at *
      omega
    rw [hrw, List.take_succ_cons]
    exact ⟨k, _, rfl⟩

/-! inserting one invalid, nonzero byte directly before a recorded action
start leaves every loop's result unchanged (one more unit of fuel covers
the lengthened input) -/

theorem macroActsLoop_insert {b : Nat} (hbv : ¬ validKind b) (hb255 : b ≤ 255)
    (hb0 : b ≠ 0) :
    ∀ (f : Nat) (ts : List Nat) (acts : MacroActs) (rest t : List Nat),
      macroActsLoop ts f = some (acts, rest) →
      t ∈ actsLoopStarts ts f → validHead t →
      macroActsLoop (insertBefore ts t b) (f + 1) = some (acts, rest) := by
  intro f
  induction f with
  | zero =>
    intro ts acts rest t h mem hv
    rw [actsLoopStarts_zero] at mem
    exact absurd mem (by simp)
  | succ f ih =>
    intro ts acts rest t h mem hv
    match ts with
    | [] =>
      rw [macroActsLoop_nil] at h
      exact absurd h (by simp)
    | 0 :: l =>
      rw [actsLoopStarts_term] at mem
      exact absurd mem (by simp)
    | (k + 1) :: l =>
      rw [macroActsLoop_cons] at h
      rw [actsLoopStarts_cons, List.mem_cons] at mem
      cases ha : actionTok ((k + 1) :: l) with
      | none => rw [ha] at h; exact absurd h (by simp)
      | some p =>
        obtain ⟨a, r0⟩ := p
        rw [ha] at h
        simp only [Option.some_bind] at h
        cases hl : macroActsLoop r0 f with
        | none => rw [hl] at h; exact absurd h (by simp)
        | some q =>
          obtain ⟨acts1, rest1⟩ := q
          rw [hl] at h
          simp only [Option.map_some', Option.some.injEq, Prod.mk.injEq] at h
          obtain ⟨rfl, rfl⟩ := h
          obtain ⟨c2, hc2ne, hc2, hc2x⟩ := macroActsLoop_det _ _ _ _ hl
          rcases mem with rfl | mem
          · rw [insertBefore_self]
            obtain ⟨b1, rfl⟩ : ∃ b1, b = b1 + 1 := ⟨b - 1, by omega⟩
            rw [macroActsLoop_cons]
            rw [actionTok_skip hbv hb255 hv]
            rw [ha]
            simp only [Option.some_bind]
            rw [hc2] at hl ⊢
            rw [hc2x (f + 1) (by omega) rest1]
            rfl
          · rw [ha] at mem
            have mem2 : t ∈ actsLoopStarts r0 f := mem
            have ht_le : t.length ≤ r0.length := actsLoopStarts_length f r0 t mem2
            have hins := ih _ _ _ _ hl mem2 hv
            obtain ⟨c1, hc1len, hc1, hc1x⟩ := actionTok_det ha
            rw [hc1, insertBefore_append ht_le]
            cases c1 with
            | nil => simp at hc1len
            | cons c0 c1t =>
              have hc0 : c0 = k + 1 := by
                simp only [List.cons_append, List.cons.injEq] at hc1
                exact hc1.1.symm
              subst hc0
              simp only [List.cons_append]
              rw [macroActsLoop_cons]
              rw [show (k + 1) :: (c1t ++ insertBefore r0 t b)
                    = ((k + 1) :: c1t) ++ insertBefore r0 t b from rfl]
              rw [hc1x (insertBefore r0 t b)]
              simp only [Option.some_bind]
              rw [hins]
              rfl

theorem macroTok_insert {b : Nat} (hbv : ¬ validKind b) (hb255 : b ≤ 255)
    (hb0 : b ≠ 0) {f : Nat} {ts : List Nat} {m : MacroActs} {r t : List Nat}
    (h : macroTok ts f = some (m, r))
    (mem : t ∈ macroTokStarts ts f) (hv : validHead t) :
    macroTok (insertBefore ts t b) (f + 1) = some (m, r) := by
  unfold macroTok at h
  unfold macroTokStarts at mem
  rw [List.mem_cons] at mem
  cases ha : actionTok ts with
  | none => rw [ha] at h; exact absurd h (by simp)
  | some p =>
    obtain ⟨a, r0⟩ := p
    rw [ha] at h
    simp only [Option.some_bind] at h
    cases hl : macroActsLoop r0 f with
    | none => rw [hl] at h; exact absurd h (by simp)
    | some q =>
      obtain ⟨acts1, rest1⟩ := q
      rw [hl] at h
      simp only [Option.map_some', Option.some.injEq, Prod.mk.injEq] at h
      obtain ⟨rfl, rfl⟩ := h
      obtain ⟨c2, hc2ne, hc2, hc2x⟩ := macroActsLoop_det _ _ _ _ hl
      rcases mem with rfl | mem
      · rw [insertBefore_self]
        unfold macroTok
        rw [actionTok_skip hbv hb255 hv]
        rw [ha]
        simp only [Option.some_bind]
        rw [hc2] at hl ⊢
        rw [hc2x (f + 1) (by omega) rest1]
        rfl
      · rw [ha] at mem
        have mem2 : t ∈ actsLoopStarts r0 f := mem
        have ht_le : t.length ≤ r0.length := actsLoopStarts_length f r0 t mem2
        have hins := macroActsLoop_insert hbv hb255 hb0 _ _ _ _ _ hl mem2 hv
        obtain ⟨c1, hc1len, hc1, hc1x⟩ := actionTok_det ha
        rw [hc1, insertBefore_append ht_le]
        unfold macroTok
        rw [hc1x (insertBefore r0 t b)]
        simp only [Option.some_bind]
        rw [hins]
        rfl

theorem macroListLoop_insert {b : Nat} (hbv : ¬ validKind b) (hb255 : b ≤ 255)
    (hb0 : b ≠ 0) :
    ∀ (f : Nat) (ts : List Nat) (ms : List MacroActs) (r t : List Nat),
      macroListLoop ts f = some (ms, r) →
      t ∈ macroListLoopStarts ts f → validHead t →
      macroListLoop (insertBefore ts t b) (f + 1) = some (ms, r) := by
  intro f
  induction f with
  | zero =>
    intro ts ms r t h mem hv
    rw [macroListLoopStarts_zero] at mem
    exact absurd mem (by simp)
  | succ f ih =>
    intro ts ms r t h mem hv
    match ts with
    | [] =>
      rw [macroListLoop_nil] at h
      exact absurd h (by simp)
    | 0 :: l =>
      rw [macroListLoopStarts_term] at mem
      exact absurd mem (by simp)
    | (k + 1) :: l =>
      rw [macroListLoop_cons] at h
      rw [macroListLoopStarts_cons, List.mem_append] at mem
      cases hm : macroTok ((k + 1) :: l) f with
      | none => rw [hm] at h; exact absurd h (by simp)
      | some p =>
        obtain ⟨m, r0⟩ := p
        rw [hm] at h
        simp only [Option.some_bind] at h
        cases hl : macroListLoop r0 f with
        | none => rw [hl] at h; exact absurd h (by simp)
        | some q =>
          obtain ⟨ms1, rest1⟩ := q
          rw [hl] at h
          simp only [Option.map_some', Option.some.injEq, Prod.mk.injEq] at h
          obtain ⟨rfl, rfl⟩ := h
          obtain ⟨c2, hc2ne, hc2, hc2x⟩ := macroListLoop_det _ _ _ _ hl
          rcases mem with mem | mem
          · have ht_le : t.length ≤ ((k + 1) :: l).length := macroTokStarts_length mem
            have hmt := macroTok_insert hbv hb255 hb0 hm mem hv
            obtain ⟨m1, l1, hshape⟩ := insertBefore_head hb0 ht_le
            rw [hshape, macroListLoop_cons, ← hshape, hmt]
            simp only [Option.some_bind]
            rw [hc2] at hl ⊢
            rw [hc2x (f + 1) (by omega) rest1]
            rfl
          · rw [hm] at mem
            have mem2 : t ∈ macroListLoopStarts r0 f := mem
            have ht_le : t.length ≤ r0.length := macroListLoopStarts_length f r0 t mem2
            have hins := ih _ _ _ _ hl mem2 hv
            obtain ⟨c1, hc1ne, hc1, hc1x⟩ := macroTok_det hm
            rw [hc1, insertBefore_append ht_le]
            cases c1 with
            | nil => exact absurd rfl hc1ne
            | cons c0 c1t =>
              have hc0 : c0 = k + 1 := by
                simp only [List.cons_append, List.cons.injEq] at hc1
                exact hc1.1.symm
              subst hc0
              simp only [List.cons_append]
              rw [macroListLoop_cons]
              rw [show (k + 1) :: (c1t ++ insertBefore r0 t b)
                    = ((k + 1) :: c1t) ++ insertBefore r0 t b from rfl]
              rw [hc1x (f + 1) (by omega) (insertBefore r0 t b)]
              simp only [Option.some_bind]
              rw [hins]
              rfl

theorem extrasLoop_insert {b : Nat} (hbv : ¬ validKind b) (hb255 : b ≤ 255)
    (hb0 : b ≠ 0) :
    ∀ (f : Nat) (ts : List Nat) (mss : List (List MacroActs)) (r t : List Nat),
      ts.length < f →
      extrasLoop ts f = (mss, r) →
      t ∈ extrasStarts ts f → validHead t →
      extrasLoop (insertBefore ts t b) (f + 1) = (mss, r) := by
  intro f
  induction f with
  | zero =>
    intro ts mss r t hlen h mem hv
    omega
  | succ f ih =>
    intro ts mss r t hlen h mem hv
    rw [extrasStarts_succ] at mem
    cases hml : macroListLoop ts f with
    | none => rw [hml] at mem; exact absurd mem (by simp)
    | some p =>
      obtain ⟨ms, rest⟩ := p
      have h2 : extrasLoop ts (f + 1)
          = (ms :: (extrasLoop rest f).1, (extrasLoop rest f).2) := by
        rw [extrasLoop_succ, hml]
      cases hrec : extrasLoop rest f with
      | mk mss1 r1 =>
        rw [hrec] at h2
        have h3 := h2.symm.trans h
        simp only [Prod.mk.injEq] at h3
        obtain ⟨rfl, rfl⟩ := h3
        rw [hml, List.mem_append] at mem
        have hcons := macroListLoop_consume hml
        rcases mem with mem | mem
        · have hins := macroListLoop_insert hbv hb255 hb0 _ _ _ _ _ hml mem hv
          have hred : extrasLoop (insertBefore ts t b) (f + 1 + 1)
              = (ms :: (extrasLoop rest (f + 1)).1, (extrasLoop rest (f + 1)).2) := by
            rw [extrasLoop_succ, hins]
          rw [hred]
          rw [extrasLoop_fuel (f + 1) f rest (by omega) (by omega), hrec]
        · have mem2 : t ∈ extrasStarts rest f := mem
          have ht_le : t.length ≤ rest.length := extrasStarts_length f rest t mem2
          have hins := ih _ _ _ _ (by omega) hrec mem2 hv
          obtain ⟨c1, hc1ne, hc1, hc1x⟩ := macroListLoop_det _ _ _ _ hml
          rw [hc1, insertBefore_append ht_le]
          have hred : extrasLoop (c1 ++ insertBefore rest t b) (f + 1 + 1)
              = (ms :: (extrasLoop (insertBefore rest t b) (f + 1)).1,
                 (extrasLoop (insertBefore rest t b) (f + 1)).2) := by
            rw [extrasLoop_succ, hc1x (f + 1) (by omega) (insertBefore rest t b)]
          rw [hred, hins]

/-- C7 (amended): injecting one out-of-range byte that is also nonzero
(so it cannot collide with the `"0 "` terminator) directly before an
action's discriminant byte of any successfully parsed macro token stream
leaves the parse result unchanged: the stray byte is discarded and the
following valid discriminant is used. -/
theorem c7_macro_stray_byte_recovery
    (ts t : List Nat) (b : Nat) (res : List MacroActs × List (List MacroActs))
    (hp : parseMacros ts = some res)
    (mem : t ∈ parseStarts ts) (hv : validHead t)
    (hbv : ¬ validKind b) (hb255 : b ≤ 255) (hb0 : b ≠ 0) :
    parseMacros (insertBefore ts t b) = some res := by
  unfold parseMacros at hp
  unfold parseStarts at mem
  cases hm : macroTok ts (ts.length + 1) with
  | none => rw [hm] at hp; simp at hp
  | some p =>
    obtain ⟨m, r1⟩ := p
    rw [hm] at hp mem
    simp only [Option.some_bind] at hp
    have mem2 : t ∈ macroTokStarts ts (ts.length + 1)
        ++ (macroListLoopStarts r1 (r1.length + 1)
          ++ (match macroListLoop r1 (r1.length + 1) with
            | some (_, r2) => extrasStarts r2 (r2.length + 1)
            | none => [])) := mem
    cases hml : macroListLoop r1 (r1.length + 1) with
    | none => rw [hml] at hp; simp at hp
    | some q =>
      obtain ⟨ms, r2⟩ := q
      rw [hml] at hp mem2
      simp only [Option.some_bind] at hp
      have mem3 : t ∈ macroTokStarts ts (ts.length + 1)
          ++ (macroListLoopStarts r1 (r1.length + 1)
            ++ extrasStarts r2 (r2.length + 1)) := mem2
      cases hE : extrasLoop r2 (r2.length + 1) with
      | mk ess r3 =>
        simp only [hE] at hp
        by_cases hs : sentinelsLoop r3 = []
        · rw [if_pos hs] at hp
          obtain rfl := Option.some.inj hp
          rw [List.mem_append] at mem3
          rcases mem3 with memA | mem4
          · have ht_le := macroTokStarts_length memA
            have hmt := macroTok_insert hbv hb255 hb0 hm memA hv
            unfold parseMacros
            rw [insertBefore_length ht_le]
            rw [hmt]
            simp only [Option.some_bind]
            rw [hml]
            simp only [Option.some_bind]
            simp only [hE]
            rw [if_pos hs]
          · rw [List.mem_append] at mem4
            rcases mem4 with memB | memC
            · obtain ⟨c1, hc1ne, hc1, hc1x⟩ := macroTok_det hm
              have ht_le : t.length ≤ r1.length :=
                macroListLoopStarts_length _ _ _ memB
              have hX : (insertBefore r1 t b).length = r1.length + 1 :=
                insertBefore_length ht_le b
              have hml2 := macroListLoop_insert hbv hb255 hb0 _ _ _ _ _ hml memB hv
              rw [hc1, insertBefore_append ht_le]
              unfold parseMacros
              have hlen1 : (c1 ++ insertBefore r1 t b).length + 1 = ts.length + 2 := by
                rw [hc1]
                simp only [List.length_append, hX]
                omega
              rw [hlen1]
              rw [hc1x (ts.length + 2) (by omega) (insertBefore r1 t b)]
              simp only [Option.some_bind]
              rw [hX]
              rw [hml2]
              simp only [Option.some_bind]
              simp only [hE]
              rw [if_pos hs]
            · obtain ⟨c1, hc1ne, hc1, hc1x⟩ := macroTok_det hm
              obtain ⟨c2, hc2ne, hc2, hc2x⟩ := macroListLoop_det _ _ _ _ hml
              have ht_le : t.length ≤ r2.length := extrasStarts_length _ _ _ memC
              have hY : (insertBefore r2 t b).length = r2.length + 1 :=
                insertBefore_length ht_le b
              have hEins := extrasLoop_insert hbv hb255 hb0 _ _ _ _ _
                (by omega) hE memC hv
              have ht_le2 : t.length ≤ (c2 ++ r2).length := by
                rw [List.length_append]
                omega
              rw [hc1, hc2, insertBefore_append ht_le2, insertBefore_append ht_le]
              unfold parseMacros
              have hlen1 : (c1 ++ (c2 ++ insertBefore r2 t b)).length + 1
                  = ts.length + 2 := by
                rw [hc1, hc2]
                simp only [List.length_append, hY]
                omega
              rw [hlen1]
              rw [hc1x (ts.length + 2) (by omega) (c2 ++ insertBefore r2 t b)]
              simp only [Option.some_bind]
              have hlen2 : (c2 ++ insertBefore r2 t b).length + 1
                  = r1.length + 2 := by
                rw [hc2]
                simp only [List.length_append, hY]
                omega
              rw [hlen2]
              rw [hc2x (r1.length + 2) (by omega) (insertBefore r2 t b)]
              simp only [Option.some_bind]
              rw [hY]
              simp only [hEins]
              rw [if_pos hs]
        · rw [if_neg hs] at hp
          exact absurd hp (by simp)

/-- C7 as stated is false at a concrete input: in the token stream
`8 4 8 5 0 0` the suffix `8 5 0 0` is an action start with a valid
discriminant, yet injecting the out-of-range byte `0` directly before it
changes the parse: `0` is taken as the `"0 "` macro terminator, so the one
two-action macro splits into two one-action macros instead of the stray
byte being discarded. -/
theorem c7_counterexample :
    [8, 5, 0, 0] ∈ parseStarts [8, 4, 8, 5, 0, 0]
    ∧ validHead [8, 5, 0, 0]
    ∧ ¬ validKind 0
    ∧ insertBefore [8, 4, 8, 5, 0, 0] [8, 5, 0, 0] 0 = [8, 4, 0, 8, 5, 0, 0]
    ∧ parseMacros [8, 4, 8, 5, 0, 0]
        = some ([[.press (KeyKind.fromU16 4), .press (KeyKind.fromU16 5)]], [])
    ∧ parseMacros [8, 4, 0, 8, 5, 0, 0]
        = some ([[.press (KeyKind.fromU16 4)], [.press (KeyKind.fromU16 5)]], [])
    ∧ parseMacros (insertBefore [8, 4, 8, 5, 0, 0] [8, 5, 0, 0] 0)
        ≠ parseMacros [8, 4, 8, 5, 0, 0] :=
  ⟨by decide, by decide, by decide, by decide, by decide, by decide, by decide⟩

theorem c7_macro_stray_byte_recovery_witness :
    parseMacros (insertBefore [8, 4, 8, 5, 0, 0] [8, 5, 0, 0] 9)
      = some ([[MacroAction.press (KeyKind.fromU16 4),
          MacroAction.press (KeyKind.fromU16 5)]], []) :=
  c7_macro_stray_byte_recovery [8, 4, 8, 5, 0, 0] [8, 5, 0, 0] 9
    ([[MacroAction.press (KeyKind.fromU16 4), MacroAction.press (KeyKind.fromU16 5)]], [])
    (by decide) (by decide) (by decide) (by decide) (by decide) (by decide)

end DygmaSpec
